import Mathlib

/-!
A verification development for the dependency-aware concurrent task executor in
`src/lib/index.ts` (`better-all`).

The executor is embedded shallowly: the single-threaded cooperative semantics of
the host runtime is modelled as a small-step interpreter over an explicit state.
Each unit of work is a `TaskBody` — a tree of suspension points: it can return,
throw, suspend on an internal asynchronous operation, or request another task's
result through the per-caller dependency handle, supplying the two continuations
with which its `await` resumes.  A schedule (a list of indices) chooses which
runnable thread performs its next step, so theorems quantified over schedules
cover every cooperative interleaving, including the one the JavaScript microtask
queue actually produces.

JavaScript `Map`s keyed by task name are modelled as functions
`String → Option _` (same lookup/update semantics); the `waitingFor` map is kept
as an association list because the two depth-first searches of the source
(`hasCyclePath`, `buildCyclePath`) traverse it and need an explicit finite
carrier for their termination fuel.  A `log` of ghost events records body
invocations, settlements and every delivery of a stored outcome to a dependent;
it instruments the embedding and affects nothing.
-/

namespace BetterAll

/-- Runtime values flowing through the executor: task results, thrown values,
and the plain `Error` objects the executor itself constructs with `new
Error(msg)` — distinguished solely by their message string. -/
inductive Value where
  | num (n : Int)
  | str (s : String)
  | error (msg : String)
  deriving DecidableEq, Repr

/-- A task outcome: fulfilled with a value or rejected with a reason. -/
inductive Outcome where
  | ok (v : Value)
  | err (e : Value)
  deriving DecidableEq, Repr

/-- What `waitForDep` hands back to the requesting unit: an already-settled
future (`now`), or a suspension — the caller was enqueued on the target's
resolver queue (`wait`). -/
inductive WaitRes where
  | now (o : Outcome)
  | wait
  deriving DecidableEq, Repr

/-- An entry of `returnValue`: the raw resolved value in fail-fast mode, or a
settlement descriptor `{status: 'fulfilled', value}` / `{status: 'rejected',
reason}` in settle-all mode. -/
inductive RVal where
  | raw (v : Value)
  | fulfilled (v : Value)
  | rejected (reason : Value)
  deriving DecidableEq, Repr

/-- The body of a unit of work, as the executor observes it.  `get dep k h`
models `await this.$.dep`, resuming with `k` if the returned future fulfils and
with `h` if it rejects (a body that does not catch uses `fun e => .thr e`);
`pause` models an internal `await` of the unit's own asynchronous work. -/
inductive TaskBody where
  | ret (v : Value)
  | thr (e : Value)
  | pause (k : TaskBody)
  | get (dep : String) (k : Value → TaskBody) (h : Value → TaskBody)

/-- One entry of the task set: an invocable unit, or a value that is not a
function (`typeof taskFn !== 'function'`). -/
inductive TaskEntry where
  | fn (body : TaskBody)
  | notFn

/-- The task set, in declaration (insertion) order; keys are unique. -/
abbrev Tasks := List (String × TaskEntry)

/-- A pending continuation pair on some task's resolver queue: the waiting
task's name, its fulfilment continuation and its rejection continuation. -/
abbrev Waiter := String × (Value → TaskBody) × (Value → TaskBody)

/-- Ghost events instrumenting a run: a task body was invoked, a task settled,
or a stored outcome was delivered to a dependent (via the settled-state fast
path of `waitForDep`, or via the drain of a resolver queue at settlement). -/
inductive Event where
  | invoked (name : String)
  | settledOk (name : String) (v : Value)
  | settledErr (name : String) (e : Value)
  | observed (caller dep : String) (v : Value)
  | observedErr (caller dep : String) (e : Value)
  deriving DecidableEq, Repr

/-- Association-list lookup, modelling `Map.get` / the `key in obj` test
(first matching key wins). -/
def alookup {α : Type} : List (String × α) → String → Option α
  | [], _ => none
  | p :: l, k => if p.1 = k then some p.2 else alookup l k

/-- Pointwise update of a functional map, modelling `Map.set(k, v)`. -/
def mupd {α : Type} (m : String → Option α) (k : String) (v : α) : String → Option α :=
  fun n => if n = k then some v else m n

/-- The wait graph `waitingFor : Map<name, Set<name>>`, in insertion order. -/
abbrev Graph := List (String × List String)

/-- The recorded targets of a caller (`waitingFor.get(c)`, empty if absent). -/
def adjOf (g : Graph) (c : String) : List String := (alookup g c).getD []

/-- A recorded wait edge `c → d`. -/
def Edge (g : Graph) (c d : String) : Prop := d ∈ adjOf g c

instance (g : Graph) (c d : String) : Decidable (Edge g c d) := by
  unfold Edge; infer_instance

/-- Record the edge `c → d`: create `c`'s entry on first use, then add `d` to
its set — `if (!waitingFor.has(c)) waitingFor.set(c, new Set());
waitingFor.get(c)!.add(d)`.  Adding an already-present target is a no-op. -/
def addEdge (g : Graph) (c d : String) : Graph :=
  match alookup g c with
  | none => g ++ [(c, [d])]
  | some _ =>
    g.map (fun p => if p.1 = c then (p.1, if d ∈ p.2 then p.2 else p.2 ++ [d]) else p)

/-- Fuel bounding the two depth-first searches.  The source's loops terminate
because every node is visited at most once and each visit pushes one adjacency
list; this bound makes that explicit (it exceeds the total number of loop
iterations, see `hasCycleGo_fuelInv` style lemmas below). -/
def graphFuel (g : Graph) : Nat := (g.map (fun p => p.2.length)).sum + g.length + 2

/-- The stack-based DFS loop of `hasCyclePath`: pop the top of the stack, test
it against the target, mark it visited and push its neighbours.  The head of
the list is the top of the stack, so pushing the adjacency list in order means
prepending it reversed. -/
def hasCycleGo (g : Graph) (t : String) : Nat → List String → List String → Bool
  | 0, _, _ => false
  | _ + 1, [], _ => false
  | fuel + 1, c :: rest, vis =>
    if c = t then true
    else if c ∈ vis then hasCycleGo g t fuel rest vis
    else hasCycleGo g t fuel ((adjOf g c).reverse ++ rest) (c :: vis)

/-- `hasCyclePath(f, t)`: is there a path from `f` to `t` in the waiting graph
(including the empty path when `f = t`)? -/
def hasCyclePath (g : Graph) (f t : String) : Bool :=
  hasCycleGo g t (graphFuel g) [f] []

/-- The recursive DFS of `buildCyclePath`: `findPath(current)` with the
`visited` set and the `path` array threaded explicitly.  The loop over the
neighbours pushes `d`, recurses, and pops on failure, so a failed branch
restores the path of the enclosing call; on success the accumulated path (from
the original start up to `t`) is returned. -/
def fpGo (g : Graph) (t : String) :
    Nat → String → List String → List String → Bool × List String × List String
  | 0, _, vis, path => (false, vis, path)
  | fuel + 1, current, vis, path =>
    if current = t then (true, vis, path)
    else if current ∈ vis then (false, vis, path)
    else
      (adjOf g current).foldl
        (fun acc d =>
          if acc.1 then acc
          else
            match fpGo g t fuel d acc.2.1 (path ++ [d]) with
            | (true, vis2, p2) => (true, vis2, p2)
            | (false, vis2, _) => (false, vis2, path))
        (false, current :: vis, path)

/-- `buildCyclePath(f, t)`: the DFS path from `f` towards `t`, as the list of
task names the source then joins with " → ".  It always starts with `f`; when
`t` is reachable it ends with `t`. -/
def buildCyclePath (g : Graph) (f t : String) : List String :=
  (fpGo g t (graphFuel g) f [] [f]).2.2

/-- `Unknown task "<name>"`. -/
def unknownMsg (d : String) : String := "Unknown task \"" ++ d ++ "\""

/-- The self-reference rejection message:
`Circular dependency detected: ${caller} → ${dep}` (with `caller = dep`). -/
def selfMsg (c d : String) : String :=
  "Circular dependency detected: " ++ c ++ " → " ++ d

/-- The arrow-separated parts of the circular-dependency message.  The source
formats `` `${caller} → ${cyclePath} → ${caller}` `` where `cyclePath` is
`buildCyclePath(dep, caller)` joined with " → "; since that path is never
empty, the whole message is exactly these parts joined with " → ". -/
def msgParts (caller dep : String) (g : Graph) : List String :=
  caller :: (buildCyclePath g dep caller ++ [caller])

/-- `Circular dependency detected: ${caller} → ${cyclePath} → ${caller}`. -/
def cycleMsg (caller dep : String) (g : Graph) : String :=
  "Circular dependency detected: " ++ String.intercalate " → " (msgParts caller dep g)

/-- `Task "<name>" is not a function`. -/
def notCallableMsg (n : String) : String := "Task \"" ++ n ++ "\" is not a function"

/-- The shared mutable state of one `executeTasksInternal` call: the memoised
results and errors, the per-task resolver queues, the aggregate `returnValue`,
the wait graph, the runnable threads (each unit's remaining body), and the
ghost event log. -/
structure ExecState where
  results : String → Option Value
  errors : String → Option Value
  resolvers : String → List Waiter
  returnValue : String → Option RVal
  waitingFor : Graph
  threads : List (String × TaskBody)
  log : List Event

/-- `waitForDep(callerTask, depName)`, faithful to the source's order of
checks: unknown target, self-reference, cycle detection, edge recording,
settled fast paths, and finally enqueueing a resolver pair.  The returned
future is represented by its effect on the caller: an immediate outcome, or a
suspension (the caller's continuations were enqueued on the target's queue). -/
def waitForDep (tasks : Tasks) (callerTask depName : String)
    (k h : Value → TaskBody) (st : ExecState) : WaitRes × ExecState :=
  if (alookup tasks depName).isNone then
    (.now (.err (.error (unknownMsg depName))), st)
  else if callerTask = depName then
    (.now (.err (.error (selfMsg callerTask depName))), st)
  else if hasCyclePath st.waitingFor depName callerTask then
    (.now (.err (.error (cycleMsg callerTask depName st.waitingFor))), st)
  else
    let st1 := { st with waitingFor := addEdge st.waitingFor callerTask depName }
    match st1.results depName with
    | some v =>
      (.now (.ok v), { st1 with log := st1.log ++ [.observed callerTask depName v] })
    | none =>
      match st1.errors depName with
      | some e =>
        (.now (.err e), { st1 with log := st1.log ++ [.observedErr callerTask depName e] })
      | none =>
        (.wait,
          { st1 with
            resolvers := fun n =>
              if n = depName then st1.resolvers depName ++ [(callerTask, k, h)]
              else st1.resolvers n })

/-- The mode-independent part of `handleResult(name, value)`: store the result,
drain the resolver queue exactly once (each pending `resolve` fires with the
settling value, resuming its waiter as a runnable thread), and log the
settlement and the deliveries. -/
def settleOk (name : String) (v : Value) (st : ExecState) : ExecState :=
  let ws := st.resolvers name
  { st with
    results := mupd st.results name v
    resolvers := fun n => if n = name then [] else st.resolvers n
    threads := st.threads ++ ws.map (fun w => (w.1, w.2.1 v))
    log := st.log ++ [.settledOk name v] ++ ws.map (fun w => .observed w.1 name v) }

/-- `handleResult`: additionally record the `returnValue` entry — the raw value
in fail-fast mode, a fulfilled descriptor in settle-all mode. -/
def handleResult (handleSettled : Bool) (name : String) (v : Value) (st : ExecState) :
    ExecState :=
  { settleOk name v st with
    returnValue := mupd st.returnValue name (if handleSettled then .fulfilled v else .raw v) }

/-- The mode-independent part of `handleError(name, err)`: store the error and
drain the resolver queue (each pending `reject` fires with the stored error
value itself). -/
def settleErr (name : String) (e : Value) (st : ExecState) : ExecState :=
  let ws := st.resolvers name
  { st with
    errors := mupd st.errors name e
    resolvers := fun n => if n = name then [] else st.resolvers n
    threads := st.threads ++ ws.map (fun w => (w.1, w.2.2 e))
    log := st.log ++ [.settledErr name e] ++ ws.map (fun w => .observedErr w.1 name e) }

/-- `handleError`: additionally, in settle-all mode only, record a rejected
descriptor in `returnValue` (fail-fast mode records nothing for failures). -/
def handleError (handleSettled : Bool) (name : String) (e : Value) (st : ExecState) :
    ExecState :=
  { settleErr name e st with
    returnValue := if handleSettled then mupd st.returnValue name (.rejected e) else st.returnValue }

/-- One cooperative step: the schedule index picks a runnable thread, which
executes up to its next suspension point.  A body that returns or throws
settles its task; a `get` goes through `waitForDep` and either continues
immediately with the outcome or blocks on the target's resolver queue. -/
def step (tasks : Tasks) (handleSettled : Bool) (st : ExecState) (idx : Nat) : ExecState :=
  match st.threads[idx % st.threads.length]? with
  | none => st
  | some (name, body) =>
    let rest := st.threads.eraseIdx (idx % st.threads.length)
    match body with
    | .ret v => handleResult handleSettled name v { st with threads := rest }
    | .thr e => handleError handleSettled name e { st with threads := rest }
    | .pause k => { st with threads := rest ++ [(name, k)] }
    | .get dep k h =>
      match waitForDep tasks name dep k h { st with threads := rest } with
      | (.now (.ok v), st1) => { st1 with threads := st1.threads ++ [(name, k v)] }
      | (.now (.err e), st1) => { st1 with threads := st1.threads ++ [(name, h e)] }
      | (.wait, st1) => st1

/-- Launching one entry of the task set: an invocable unit becomes a runnable
thread holding its body; a non-invocable entry becomes a thread that
immediately throws the `NotCallable` error (the `typeof` check inside the
per-task async closure). -/
def spawn (p : String × TaskEntry) : String × TaskBody :=
  match p.2 with
  | .fn b => (p.1, b)
  | .notFn => (p.1, .thr (.error (notCallableMsg p.1)))

/-- The state at the start of a call: every declared unit launched (and its
body invocation logged — `taskFn.call(taskContext)` happens exactly once, in
the `taskNames.map` closure), all stores empty. -/
def initState (tasks : Tasks) : ExecState :=
  { results := fun _ => none
    errors := fun _ => none
    resolvers := fun _ => []
    returnValue := fun _ => none
    waitingFor := []
    threads := tasks.map spawn
    log := tasks.filterMap
      (fun p => match p.2 with | .fn _ => some (.invoked p.1) | .notFn => none) }

/-- Run a schedule of cooperative steps. -/
def run (tasks : Tasks) (handleSettled : Bool) (st : ExecState) (sched : List Nat) :
    ExecState :=
  sched.foldl (step tasks handleSettled) st

/-- The shared executor core, as a function of the schedule. -/
def executeTasksInternal (tasks : Tasks) (handleSettled : Bool) (sched : List Nat) :
    ExecState :=
  run tasks handleSettled (initState tasks) sched

/-- The first task rejection in settlement order — the rejection
`Promise.all(promises)` adopts, since each task's promise rejects exactly when
the task settles rejected (fail-fast mode rethrows after `handleError`). -/
def firstErrorIn : List Event → Option Value
  | [] => none
  | .settledErr _ e :: _ => some e
  | _ :: l => firstErrorIn l

/-- The fail-fast entry `all`: `executeTasksInternal(tasks, false)` joined by
`Promise.all` — if any unit settled rejected, the call's future rejects with
the first such error and exposes no entries; otherwise it resolves with
`returnValue`. -/
def all (tasks : Tasks) (sched : List Nat) : Except Value (String → Option RVal) :=
  match firstErrorIn (executeTasksInternal tasks false sched).log with
  | some e => .error e
  | none => .ok (executeTasksInternal tasks false sched).returnValue

/-- The settle-all entry `allSettled`: `executeTasksInternal(tasks, true)`
joined by `Promise.allSettled(...).then(() => returnValue)`, which never
rejects — the call's future always resolves with `returnValue`. -/
def allSettled (tasks : Tasks) (sched : List Nat) : Except Value (String → Option RVal) :=
  .ok (executeTasksInternal tasks true sched).returnValue

/-- Reachability along recorded wait edges (reflexive-transitive). -/
inductive Reaches (g : Graph) : String → String → Prop where
  | refl (x : String) : Reaches g x x
  | head {x y z : String} : Edge g x y → Reaches g y z → Reaches g x z

/-- Reachability by at least one edge. -/
def ReachesPlus (g : Graph) (x y : String) : Prop := ∃ z, Edge g x z ∧ Reaches g z y

/-- The wait graph has no (nonempty) cycle. -/
def Acyclic (g : Graph) : Prop := ∀ n, ¬ ReachesPlus g n n

/-- Reachability whose every edge starts outside the set `vis` — the paths a
DFS with visited set `vis` can still discover. -/
inductive RA (g : Graph) (vis : List String) : String → String → Prop where
  | refl (x : String) : RA g vis x x
  | head {x y z : String} : x ∉ vis → Edge g x y → RA g vis y z → RA g vis x z


/-! ### Reachability basics -/

theorem reaches_trans {g : Graph} {x y z : String}
    (h1 : Reaches g x y) : Reaches g y z → Reaches g x z := by
  induction h1 with
  | refl => exact id
  | head e _ ih => intro h2; exact Reaches.head e (ih h2)

theorem reaches_snoc {g : Graph} {x y z : String}
    (h1 : Reaches g x y) (e : Edge g y z) : Reaches g x z :=
  reaches_trans h1 (Reaches.head e (Reaches.refl z))

theorem ra_of_subset {g : Graph} {vis vis' : List String} (hs : ∀ a ∈ vis, a ∈ vis')
    {x y : String} (h : RA g vis' x y) : RA g vis x y := by
  induction h with
  | refl => exact RA.refl _
  | head hm e _ ih => exact RA.head (fun hx => hm (hs _ hx)) e ih

theorem ra_nil_of_reaches {g : Graph} {x y : String} (h : Reaches g x y) : RA g [] x y := by
  induction h with
  | refl => exact RA.refl _
  | head e _ ih => exact RA.head (List.not_mem_nil _) e ih

theorem reaches_of_ra {g : Graph} {vis : List String} {x y : String}
    (h : RA g vis x y) : Reaches g x y := by
  induction h with
  | refl => exact Reaches.refl _
  | head _ e _ ih => exact Reaches.head e ih

/-- Visiting a node `c` cannot block any still-discoverable path, except by
making its continuation start at a neighbour of `c`. -/
theorem ra_shift {g : Graph} {vis : List String} {c t : String} :
    ∀ {y}, RA g vis y t → RA g (c :: vis) y t ∨ ∃ d, Edge g c d ∧ RA g (c :: vis) d t := by
  intro y h
  induction h with
  | refl => exact Or.inl (RA.refl _)
  | @head x w z hm e _ ih =>
    rcases ih with ih | ih
    · by_cases hxc : x = c
      · exact Or.inr ⟨w, hxc ▸ e, ih⟩
      · refine Or.inl (RA.head ?_ e ih)
        intro hx
        rcases List.mem_cons.mp hx with hx | hx
        · exact hxc hx
        · exact hm hx
    · exact Or.inr ih

theorem ra_cons_self_elim {g : Graph} {vis : List String} {c t : String}
    (h : RA g (c :: vis) c t) (hne : c ≠ t) : False := by
  cases h with
  | refl => exact hne rfl
  | head hm _ _ => exact hm (List.mem_cons_self c vis)

/-- From a still-discoverable path out of an unvisited `c ≠ t`, a neighbour of
`c` has a still-discoverable path even after `c` is visited. -/
theorem ra_step_out {g : Graph} {vis : List String} {c t : String}
    (h : RA g vis c t) (hne : c ≠ t) : ∃ d, Edge g c d ∧ RA g (c :: vis) d t := by
  rcases ra_shift (c := c) h with h1 | h1
  · exact absurd hne (by intro hne2; exact ra_cons_self_elim h1 hne2)
  · exact h1

/-! ### Correctness of the stack-based DFS `hasCyclePath` -/

/-- Adjacency mass of the unvisited part of the graph (a loop variant for the
stack DFS: each visit of a fresh node consumes its adjacency list). -/
def unvisitedAdj (g : Graph) (vis : List String) : Nat :=
  match g with
  | [] => 0
  | p :: g => (if p.1 ∈ vis then 0 else p.2.length) + unvisitedAdj g vis

theorem unvisitedAdj_mono {g : Graph} {vis vis' : List String}
    (h : ∀ x ∈ vis, x ∈ vis') : unvisitedAdj g vis' ≤ unvisitedAdj g vis := by
  induction g with
  | nil => simp [unvisitedAdj]
  | cons p g ih =>
    simp only [unvisitedAdj]
    by_cases h1 : p.1 ∈ vis
    · simp [h1, h _ h1]; omega
    · by_cases h2 : p.1 ∈ vis'
      · simp [h1, h2]; omega
      · simp [h1, h2]; omega

theorem unvisitedAdj_lookup {g : Graph} {vis : List String} {c : String} {l : List String}
    (hl : alookup g c = some l) (hc : c ∉ vis) :
    unvisitedAdj g (c :: vis) + l.length ≤ unvisitedAdj g vis := by
  induction g with
  | nil => simp [alookup] at hl
  | cons p g ih =>
    simp only [alookup] at hl
    simp only [unvisitedAdj]
    by_cases h1 : p.1 = c
    · simp only [if_pos h1] at hl
      have hlen : unvisitedAdj g (c :: vis) ≤ unvisitedAdj g vis :=
        unvisitedAdj_mono (by intro x hx; exact List.mem_cons_of_mem _ hx)
      cases hl
      simp [h1, hc]
      omega
    · simp only [if_neg h1] at hl
      have := ih hl
      have hmem : p.1 ∈ c :: vis ↔ p.1 ∈ vis := by
        constructor
        · intro hx; rcases List.mem_cons.mp hx with hx | hx
          · exact absurd hx h1
          · exact hx
        · exact fun hx => List.mem_cons_of_mem _ hx
      by_cases h2 : p.1 ∈ vis
      · simp [h2, hmem.mpr h2]; omega
      · have h3 : p.1 ∉ c :: vis := fun hx => h2 (hmem.mp hx)
        simp [h2, h3]; omega

theorem unvisitedAdj_nil_le (g : Graph) :
    unvisitedAdj g [] ≤ (g.map (fun p => p.2.length)).sum := by
  induction g with
  | nil => simp [unvisitedAdj]
  | cons p g ih => simp [unvisitedAdj]; omega

theorem hasCycleGo_sound {g : Graph} {t : String} :
    ∀ fuel stack vis, hasCycleGo g t fuel stack vis = true → ∃ s ∈ stack, Reaches g s t := by
  intro fuel
  induction fuel with
  | zero => intro stack vis h; simp [hasCycleGo] at h
  | succ n ih =>
    intro stack vis h
    match stack with
    | [] => simp [hasCycleGo] at h
    | c :: rest =>
      by_cases h1 : c = t
      · exact ⟨c, List.mem_cons_self c rest, h1 ▸ Reaches.refl c⟩
      · simp only [hasCycleGo, if_neg h1] at h
        by_cases h2 : c ∈ vis
        · simp only [if_pos h2] at h
          obtain ⟨s, hs, hr⟩ := ih _ _ h
          exact ⟨s, List.mem_cons_of_mem _ hs, hr⟩
        · simp only [if_neg h2] at h
          obtain ⟨s, hs, hr⟩ := ih _ _ h
          rcases List.mem_append.mp hs with hs | hs
          · exact ⟨c, List.mem_cons_self c rest,
              Reaches.head (List.mem_reverse.mp hs) hr⟩
          · exact ⟨s, List.mem_cons_of_mem _ hs, hr⟩

theorem closed_reaches {g : Graph} {vis : List String}
    (hcl : ∀ v ∈ vis, ∀ d ∈ adjOf g v, d ∈ vis) {s t : String}
    (h : Reaches g s t) : s ∈ vis → t ∈ vis := by
  induction h with
  | refl => exact id
  | head e _ ih => intro hs; exact ih (hcl _ hs _ e)

theorem hasCycleGo_complete {g : Graph} {t : String} :
    ∀ fuel stack vis,
      (∀ v ∈ vis, ∀ d ∈ adjOf g v, d ∈ vis ∨ d ∈ stack) →
      t ∉ vis →
      stack.length + unvisitedAdj g vis + 1 ≤ fuel →
      hasCycleGo g t fuel stack vis = false →
      ∀ s, s ∈ stack ∨ s ∈ vis → ¬ Reaches g s t := by
  intro fuel
  induction fuel with
  | zero => intro stack vis _ _ hf; omega
  | succ n ih =>
    intro stack vis hcl ht hf hrun s hs hr
    match stack with
    | [] =>
      have hclosed : ∀ v ∈ vis, ∀ d ∈ adjOf g v, d ∈ vis := by
        intro v hv d hd
        rcases hcl v hv d hd with h | h
        · exact h
        · exact absurd h (List.not_mem_nil d)
      rcases hs with hs | hs
      · exact absurd hs (List.not_mem_nil s)
      · exact ht (closed_reaches hclosed hr hs)
    | c :: rest =>
      by_cases h1 : c = t
      · simp [hasCycleGo, h1] at hrun
      · simp only [hasCycleGo, if_neg h1] at hrun
        by_cases h2 : c ∈ vis
        · simp only [if_pos h2] at hrun
          have hcl' : ∀ v ∈ vis, ∀ d ∈ adjOf g v, d ∈ vis ∨ d ∈ rest := by
            intro v hv d hd
            rcases hcl v hv d hd with h | h
            · exact Or.inl h
            · rcases List.mem_cons.mp h with h | h
              · exact Or.inl (h ▸ h2)
              · exact Or.inr h
          have hf' : rest.length + unvisitedAdj g vis + 1 ≤ n := by
            simp at hf; omega
          have hs' : s ∈ rest ∨ s ∈ vis := by
            rcases hs with hs | hs
            · rcases List.mem_cons.mp hs with hs | hs
              · exact Or.inr (hs ▸ h2)
              · exact Or.inl hs
            · exact Or.inr hs
          exact ih rest vis hcl' ht hf' hrun s hs' hr
        · simp only [if_neg h2] at hrun
          have hcl' : ∀ v ∈ c :: vis, ∀ d ∈ adjOf g v,
              d ∈ c :: vis ∨ d ∈ (adjOf g c).reverse ++ rest := by
            intro v hv d hd
            rcases List.mem_cons.mp hv with hv | hv
            · exact Or.inr (List.mem_append.mpr (Or.inl (List.mem_reverse.mpr (hv ▸ hd))))
            · rcases hcl v hv d hd with h | h
              · exact Or.inl (List.mem_cons_of_mem _ h)
              · rcases List.mem_cons.mp h with h | h
                · exact Or.inl (h ▸ List.mem_cons_self c vis)
                · exact Or.inr (List.mem_append.mpr (Or.inr h))
          have ht' : t ∉ c :: vis := by
            intro hx
            rcases List.mem_cons.mp hx with hx | hx
            · exact h1 hx.symm
            · exact ht hx
          have hf' : ((adjOf g c).reverse ++ rest).length + unvisitedAdj g (c :: vis) + 1 ≤ n := by
            rcases hlk : alookup g c with _ | l
            · have : adjOf g c = [] := by simp [adjOf, hlk]
              have hmono : unvisitedAdj g (c :: vis) ≤ unvisitedAdj g vis :=
                unvisitedAdj_mono (by intro x hx; exact List.mem_cons_of_mem _ hx)
              simp [this] at *
              omega
            · have hadj : adjOf g c = l := by simp [adjOf, hlk]
              have := unvisitedAdj_lookup hlk h2
              simp at hf
              simp [hadj]
              omega
          have hs' : s ∈ (adjOf g c).reverse ++ rest ∨ s ∈ c :: vis := by
            rcases hs with hs | hs
            · rcases List.mem_cons.mp hs with hs | hs
              · exact Or.inr (hs ▸ List.mem_cons_self c vis)
              · exact Or.inl (List.mem_append.mpr (Or.inr hs))
            · exact Or.inr (List.mem_cons_of_mem _ hs)
          exact ih _ _ hcl' ht' hf' hrun s hs' hr

theorem hasCyclePath_iff {g : Graph} {f t : String} :
    hasCyclePath g f t = true ↔ Reaches g f t := by
  constructor
  · intro h
    obtain ⟨s, hs, hr⟩ := hasCycleGo_sound _ _ _ h
    rcases List.mem_cons.mp hs with hs | hs
    · exact hs ▸ hr
    · exact absurd hs (List.not_mem_nil s)
  · intro hr
    by_contra h
    have hfalse : hasCyclePath g f t = false := by
      cases hx : hasCyclePath g f t
      · rfl
      · exact absurd hx h
    have hfuel : (1:Nat) + unvisitedAdj g [] + 1 ≤ graphFuel g := by
      have := unvisitedAdj_nil_le g
      simp [graphFuel]
      omega
    exact hasCycleGo_complete (graphFuel g) [f] []
      (by intro v hv; exact absurd hv (List.not_mem_nil v))
      (List.not_mem_nil t) (by simpa using hfuel) hfalse f
      (Or.inl (List.mem_cons_self f [])) hr

/-! ### Correctness of the recursive DFS `buildCyclePath` -/

/-- The loop body of `findPath` over one neighbour `d`: skip if already found,
otherwise push `d`, recurse, and pop (restore the path) on failure. -/
def fpStep (g : Graph) (t : String) (fuel : Nat) (path : List String) :
    (Bool × List String × List String) → String → Bool × List String × List String :=
  fun acc d =>
    if acc.1 then acc
    else
      match fpGo g t fuel d acc.2.1 (path ++ [d]) with
      | (true, vis2, p2) => (true, vis2, p2)
      | (false, vis2, _) => (false, vis2, path)

theorem fpGo_succ (g : Graph) (t : String) (fuel : Nat) (current : String)
    (vis path : List String) :
    fpGo g t (fuel + 1) current vis path =
      if current = t then (true, vis, path)
      else if current ∈ vis then (false, vis, path)
      else (adjOf g current).foldl (fpStep g t fuel path) (false, current :: vis, path) :=
  rfl

theorem fpStep_false (g : Graph) (t : String) (fuel : Nat) (path : List String)
    (vis0 p0 : List String) (d : String) :
    fpStep g t fuel path (false, vis0, p0) d =
      ((fpGo g t fuel d vis0 (path ++ [d])).1, (fpGo g t fuel d vis0 (path ++ [d])).2.1,
        cond (fpGo g t fuel d vis0 (path ++ [d])).1 (fpGo g t fuel d vis0 (path ++ [d])).2.2
          path) := by
  simp only [fpStep]
  rcases h : fpGo g t fuel d vis0 (path ++ [d]) with ⟨b, vis2, p2⟩
  cases b <;> simp

theorem foldl_fpStep_true {g : Graph} {t : String} {fuel : Nat} {path : List String} :
    ∀ (ds : List String) (acc : Bool × List String × List String), acc.1 = true →
      ds.foldl (fpStep g t fuel path) acc = acc := by
  intro ds
  induction ds with
  | nil => intro acc _; rfl
  | cons d ds ih =>
    intro acc h
    have hst : fpStep g t fuel path acc d = acc := by simp [fpStep, h]
    rw [List.foldl_cons, hst, ih acc h]

theorem fpGo_vis_sub {g : Graph} {t : String} :
    ∀ fuel c vis path x, x ∈ vis → x ∈ (fpGo g t fuel c vis path).2.1 := by
  intro fuel
  induction fuel with
  | zero => intro c vis path x hx; simpa [fpGo] using hx
  | succ n ih =>
    intro c vis path x hx
    rw [fpGo_succ]
    by_cases h1 : c = t
    · simpa [h1] using hx
    · simp only [if_neg h1]
      by_cases h2 : c ∈ vis
      · simpa [h2] using hx
      · simp only [if_neg h2]
        have hgen : ∀ (ds : List String) (vis0 p0 : List String), x ∈ vis0 →
            x ∈ (ds.foldl (fpStep g t n path) (false, vis0, p0)).2.1 := by
          intro ds
          induction ds with
          | nil => intro vis0 p0 h; exact h
          | cons d ds ihd =>
            intro vis0 p0 h
            rcases hm : fpGo g t n d vis0 (path ++ [d]) with ⟨b, visd, pd⟩
            have hstep : fpStep g t n path (false, vis0, p0) d = (b, visd, cond b pd path) := by
              rw [fpStep_false, hm]
            have hxd : x ∈ visd := by
              have hx2 := ih d vis0 (path ++ [d]) x h
              rw [hm] at hx2
              exact hx2
            rw [List.foldl_cons, hstep]
            cases b
            · exact ihd visd (cond false pd path) hxd
            · rw [foldl_fpStep_true _ _ rfl]
              exact hxd
        exact hgen (adjOf g c) (c :: vis) path (List.mem_cons_of_mem _ hx)

theorem chain_snoc {α : Type} {R : α → α → Prop} :
    ∀ {a : α} {l : List α} {b d : α}, List.Chain R a l → (a :: l).getLast? = some b → R b d →
      List.Chain R a (l ++ [d]) := by
  intro a l
  induction l generalizing a with
  | nil =>
    intro b d _ hl hr
    simp at hl
    subst hl
    exact List.Chain.cons hr List.Chain.nil
  | cons x l ih =>
    intro b d hc hl hr
    cases hc with
    | cons hax hc =>
      refine List.Chain.cons hax (ih hc ?_ hr)
      simpa [List.getLast?_cons_cons] using hl

theorem fpGo_success_chain {g : Graph} {t : String} :
    ∀ fuel c vis path ph pt,
      path = ph :: pt → List.Chain (Edge g) ph pt → path.getLast? = some c →
      (fpGo g t fuel c vis path).1 = true →
      ∃ pt2, (fpGo g t fuel c vis path).2.2 = ph :: pt2 ∧ List.Chain (Edge g) ph pt2 ∧
        (ph :: pt2).getLast? = some t := by
  intro fuel
  induction fuel with
  | zero => intro c vis path ph pt _ _ _ h; simp [fpGo] at h
  | succ n ih =>
    intro c vis path ph pt hpath hchain hlast hres
    rw [fpGo_succ] at hres ⊢
    by_cases h1 : c = t
    · subst h1
      refine ⟨pt, by simp [hpath], hchain, ?_⟩
      rw [← hpath]
      exact hlast
    · simp only [if_neg h1] at hres ⊢
      by_cases h2 : c ∈ vis
      · simp [h2] at hres
      · simp only [if_neg h2] at hres ⊢
        have hgen : ∀ (ds : List String) (vis0 : List String), (∀ d ∈ ds, Edge g c d) →
            (ds.foldl (fpStep g t n path) (false, vis0, path)).1 = true →
            ∃ pt2, (ds.foldl (fpStep g t n path) (false, vis0, path)).2.2 = ph :: pt2 ∧
              List.Chain (Edge g) ph pt2 ∧ (ph :: pt2).getLast? = some t := by
          intro ds
          induction ds with
          | nil => intro vis0 _ h; simp at h
          | cons d ds ihd =>
            intro vis0 hds hfold
            rcases hm : fpGo g t n d vis0 (path ++ [d]) with ⟨b, visd, pd⟩
            have hstep : fpStep g t n path (false, vis0, path) d = (b, visd, cond b pd path) := by
              rw [fpStep_false, hm]
            rw [List.foldl_cons, hstep] at hfold ⊢
            cases b
            · exact ihd visd (fun x hx => hds x (List.mem_cons_of_mem _ hx)) hfold
            · rw [foldl_fpStep_true _ _ rfl] at hfold ⊢
              have hcall := ih d vis0 (path ++ [d]) ph (pt ++ [d])
                (by rw [hpath, List.cons_append])
                (chain_snoc hchain (hpath ▸ hlast) (hds d (List.mem_cons_self d ds)))
                (List.getLast?_concat path)
                (by rw [hm])
              rw [hm] at hcall
              simpa using hcall
        exact hgen (adjOf g c) (c :: vis) (fun d hd => hd) hres

/-- Count of unvisited keys (a depth bound for the recursive DFS). -/
def unvisitedKeys (g : Graph) (vis : List String) : Nat :=
  ((g.map Prod.fst).filter (fun x => decide (x ∉ vis))).length

theorem sublist_length_lt {α : Type} {s t : List α} (hsub : s.Sublist t) {c : α}
    (hc : c ∈ t) (hcs : c ∉ s) : s.length < t.length := by
  induction hsub with
  | slnil => exact absurd hc (List.not_mem_nil c)
  | cons a hsub ih =>
    rcases List.mem_cons.mp hc with h | h
    · have := hsub.length_le
      simp only [List.length_cons]
      omega
    · have := ih h hcs
      simp only [List.length_cons]
      omega
  | cons₂ a hsub ih =>
    rename_i s' t'
    have hca : c ≠ a := fun h => hcs (h ▸ List.mem_cons_self a s')
    have hct : c ∈ t' := by
      rcases List.mem_cons.mp hc with h | h
      · exact absurd h hca
      · exact h
    have hcs' : c ∉ s' := fun h => hcs (List.mem_cons_of_mem _ h)
    have := ih hct hcs'
    simp only [List.length_cons]
    omega

theorem unvisitedKeys_mono {g : Graph} {vis vis' : List String}
    (h : ∀ x ∈ vis, x ∈ vis') : unvisitedKeys g vis' ≤ unvisitedKeys g vis := by
  apply List.Sublist.length_le
  apply List.monotone_filter_right
  intro a ha
  simp only [decide_eq_true_eq] at ha ⊢
  exact fun hm => ha (h _ hm)

theorem unvisitedKeys_lt {g : Graph} {vis : List String} {c : String}
    (hc : c ∈ g.map Prod.fst) (hnv : c ∉ vis) :
    unvisitedKeys g (c :: vis) < unvisitedKeys g vis := by
  apply sublist_length_lt (c := c)
  · apply List.monotone_filter_right
    intro a ha
    simp only [decide_eq_true_eq] at ha ⊢
    exact fun hm => ha (List.mem_cons_of_mem _ hm)
  · exact List.mem_filter.mpr ⟨hc, by simp [hnv]⟩
  · intro hmem
    have := (List.mem_filter.mp hmem).2
    simp at this

theorem alookup_mem_keys {α : Type} {g : List (String × α)} {c : String} {l : α}
    (h : alookup g c = some l) : c ∈ g.map Prod.fst := by
  induction g with
  | nil => simp [alookup] at h
  | cons p g ih =>
    simp only [alookup] at h
    by_cases h1 : p.1 = c
    · simp [h1]
    · simp only [if_neg h1] at h
      simp [ih h]

theorem edge_mem_keys {g : Graph} {c d : String} (h : Edge g c d) : c ∈ g.map Prod.fst := by
  unfold Edge adjOf at h
  rcases hl : alookup g c with _ | l
  · rw [hl] at h
    simp at h
  · exact alookup_mem_keys hl

theorem unvisitedKeys_nil_le (g : Graph) : unvisitedKeys g [] ≤ g.length := by
  unfold unvisitedKeys
  calc ((g.map Prod.fst).filter (fun x => decide (x ∉ ([] : List String)))).length
      ≤ (g.map Prod.fst).length := List.length_filter_le _ _
    _ = g.length := List.length_map _ _

/-- The two directions of `findPath`'s correctness, proved simultaneously by
induction on the fuel: a failed call preserves every still-discoverable path
(its newly visited nodes cannot reach the target), and a call on a node with a
still-discoverable path succeeds. -/
theorem fpGo_main {g : Graph} {t : String} : ∀ fuel : Nat,
    (∀ c vis path vis2 p2, t ∉ vis → unvisitedKeys g vis + 1 ≤ fuel →
      fpGo g t fuel c vis path = (false, vis2, p2) →
      t ∉ vis2 ∧ ∀ x, RA g vis x t → RA g vis2 x t)
    ∧
    (∀ c vis path, t ∉ vis → unvisitedKeys g vis + 1 ≤ fuel →
      RA g vis c t → (fpGo g t fuel c vis path).1 = true) := by
  intro fuel
  induction fuel with
  | zero =>
    constructor
    · intro c vis path vis2 p2 _ hf
      omega
    · intro c vis path _ hf
      omega
  | succ n ih =>
    obtain ⟨ihF, ihC⟩ := ih
    have listF : ∀ (path ds : List String) (vis0 vis2 p2 : List String),
        t ∉ vis0 → unvisitedKeys g vis0 + 1 ≤ n →
        ds.foldl (fpStep g t n path) (false, vis0, path) = (false, vis2, p2) →
        t ∉ vis2 ∧ ∀ x, RA g vis0 x t → RA g vis2 x t := by
      intro path ds
      induction ds with
      | nil =>
        intro vis0 vis2 p2 ht0 _ hfold
        simp only [List.foldl_nil, Prod.mk.injEq] at hfold
        obtain ⟨hv, -⟩ := hfold.2
        subst hv
        exact ⟨ht0, fun x hx => hx⟩
      | cons d ds ihd =>
        intro vis0 vis2 p2 ht0 hf0 hfold
        rcases hm : fpGo g t n d vis0 (path ++ [d]) with ⟨b, visd, pd⟩
        have hstep : fpStep g t n path (false, vis0, path) d = (b, visd, cond b pd path) := by
          rw [fpStep_false, hm]
        rw [List.foldl_cons, hstep] at hfold
        cases b
        · obtain ⟨htd, hpres⟩ := ihF d vis0 (path ++ [d]) visd pd ht0 hf0 hm
          have hsub : ∀ x ∈ vis0, x ∈ visd := by
            intro x hx
            have := fpGo_vis_sub (g := g) (t := t) n d vis0 (path ++ [d]) x hx
            rw [hm] at this
            exact this
          have hfd : unvisitedKeys g visd + 1 ≤ n := by
            have := unvisitedKeys_mono (g := g) hsub
            omega
          obtain ⟨ht2, hpres2⟩ := ihd visd vis2 p2 htd hfd hfold
          exact ⟨ht2, fun x hx => hpres2 x (hpres x hx)⟩
        · rw [foldl_fpStep_true _ _ rfl] at hfold
          simp at hfold
    have listC : ∀ (path ds : List String) (vis0 : List String),
        t ∉ vis0 → unvisitedKeys g vis0 + 1 ≤ n →
        (∃ d ∈ ds, RA g vis0 d t) →
        (ds.foldl (fpStep g t n path) (false, vis0, path)).1 = true := by
      intro path ds
      induction ds with
      | nil =>
        rintro vis0 _ _ ⟨d, hd, -⟩
        exact absurd hd (List.not_mem_nil d)
      | cons d ds ihd =>
        rintro vis0 ht0 hf0 ⟨e, he, hrae⟩
        rcases hm : fpGo g t n d vis0 (path ++ [d]) with ⟨b, visd, pd⟩
        have hstep : fpStep g t n path (false, vis0, path) d = (b, visd, cond b pd path) := by
          rw [fpStep_false, hm]
        rw [List.foldl_cons, hstep]
        cases b
        · rcases List.mem_cons.mp he with he | he
          · subst he
            have := ihC e vis0 (path ++ [e]) ht0 hf0 hrae
            rw [hm] at this
            simp at this
          · obtain ⟨htd, hpres⟩ := ihF d vis0 (path ++ [d]) visd pd ht0 hf0 hm
            have hsub : ∀ x ∈ vis0, x ∈ visd := by
              intro x hx
              have := fpGo_vis_sub (g := g) (t := t) n d vis0 (path ++ [d]) x hx
              rw [hm] at this
              exact this
            have hfd : unvisitedKeys g visd + 1 ≤ n := by
              have := unvisitedKeys_mono (g := g) hsub
              omega
            exact ihd visd htd hfd ⟨e, he, hpres e hrae⟩
        · rw [foldl_fpStep_true _ _ rfl]
    constructor
    · intro c vis path vis2 p2 ht hf hrun
      rw [fpGo_succ] at hrun
      by_cases h1 : c = t
      · simp [h1] at hrun
      · simp only [if_neg h1] at hrun
        by_cases h2 : c ∈ vis
        · simp only [if_pos h2, Prod.mk.injEq] at hrun
          obtain ⟨hv, -⟩ := hrun.2
          subst hv
          exact ⟨ht, fun x hx => hx⟩
        · simp only [if_neg h2] at hrun
          have ht' : t ∉ c :: vis := by
            intro hx
            rcases List.mem_cons.mp hx with hx | hx
            · exact h1 hx.symm
            · exact ht hx
          rcases hadj : adjOf g c with _ | ⟨d0, ds0⟩
          · rw [hadj] at hrun
            simp only [List.foldl_nil, Prod.mk.injEq] at hrun
            obtain ⟨hv, -⟩ := hrun.2
            subst hv
            refine ⟨ht', fun x hx => ?_⟩
            rcases ra_shift (c := c) hx with h | ⟨d, hedge, -⟩
            · exact h
            · unfold Edge at hedge
              rw [hadj] at hedge
              exact absurd hedge (List.not_mem_nil d)
          · have hck : c ∈ g.map Prod.fst := by
              apply edge_mem_keys (d := d0)
              unfold Edge
              rw [hadj]
              exact List.mem_cons_self d0 ds0
            have hf' : unvisitedKeys g (c :: vis) + 1 ≤ n := by
              have := unvisitedKeys_lt hck h2
              omega
            rw [hadj] at hrun
            obtain ⟨hvis2, hpres⟩ := listF path (d0 :: ds0) (c :: vis) vis2 p2 ht' hf' hrun
            refine ⟨hvis2, fun x hx => ?_⟩
            rcases ra_shift (c := c) hx with h | ⟨d, hedge, hrad⟩
            · exact hpres x h
            · exfalso
              have hmem : d ∈ d0 :: ds0 := by
                unfold Edge at hedge
                rw [hadj] at hedge
                exact hedge
              have := listC path (d0 :: ds0) (c :: vis) ht' hf' ⟨d, hmem, hrad⟩
              rw [hrun] at this
              simp at this
    · intro c vis path ht hf hra
      rw [fpGo_succ]
      by_cases h1 : c = t
      · simp [h1]
      · simp only [if_neg h1]
        by_cases h2 : c ∈ vis
        · exfalso
          cases hra with
          | refl => exact h1 rfl
          | head hm _ _ => exact hm h2
        · simp only [if_neg h2]
          obtain ⟨d, hedge, hrad⟩ := ra_step_out hra h1
          have hck : c ∈ g.map Prod.fst := edge_mem_keys hedge
          have ht' : t ∉ c :: vis := by
            intro hx
            rcases List.mem_cons.mp hx with hx | hx
            · exact h1 hx.symm
            · exact ht hx
          have hf' : unvisitedKeys g (c :: vis) + 1 ≤ n := by
            have := unvisitedKeys_lt hck h2
            omega
          exact listC path (adjOf g c) (c :: vis) ht' hf' ⟨d, hedge, hrad⟩

theorem fpGo_complete {g : Graph} {f t : String} (hr : Reaches g f t) :
    (fpGo g t (graphFuel g) f [] [f]).1 = true := by
  refine (fpGo_main (graphFuel g)).2 f [] [f] (List.not_mem_nil t) ?_ (ra_nil_of_reaches hr)
  have := unvisitedKeys_nil_le g
  unfold graphFuel
  omega

/-- When the target is reachable, `buildCyclePath` returns a genuine chain of
recorded wait edges from `f` to `t` (inclusive at both ends). -/
theorem buildCyclePath_spec {g : Graph} {f t : String} (hr : Reaches g f t) :
    ∃ pt, buildCyclePath g f t = f :: pt ∧ List.Chain (Edge g) f pt ∧
      (f :: pt).getLast? = some t := by
  have hsucc := fpGo_complete hr
  have h := fpGo_success_chain (g := g) (t := t) (graphFuel g) f [] [f] f []
    rfl List.Chain.nil (by simp) hsucc
  obtain ⟨pt2, h1, h2, h3⟩ := h
  exact ⟨pt2, by rw [buildCyclePath, h1], h2, h3⟩

/-! ### Adding an edge: monotonicity and acyclicity preservation -/

theorem alookup_append_of_none {α : Type} {g1 : List (String × α)} {k : String}
    (h : alookup g1 k = none) (g2 : List (String × α)) :
    alookup (g1 ++ g2) k = alookup g2 k := by
  induction g1 with
  | nil => rfl
  | cons p g1 ih =>
    simp only [alookup] at h ⊢
    by_cases h1 : p.1 = k
    · simp [h1] at h
    · simp only [if_neg h1] at h ⊢
      exact ih h

theorem alookup_append_of_some {α : Type} {g1 : List (String × α)} {k : String} {v : α}
    (h : alookup g1 k = some v) (g2 : List (String × α)) :
    alookup (g1 ++ g2) k = some v := by
  induction g1 with
  | nil => simp [alookup] at h
  | cons p g1 ih =>
    simp only [alookup] at h ⊢
    by_cases h1 : p.1 = k
    · simpa [h1] using h
    · simp only [if_neg h1] at h ⊢
      exact ih h

theorem alookup_map_update {α : Type} (g : List (String × α)) (c : String) (F : α → α)
    (x : String) :
    alookup (g.map (fun p => if p.1 = c then (p.1, F p.2) else p)) x =
      if x = c then (alookup g c).map F else alookup g x := by
  induction g with
  | nil => by_cases h : x = c <;> simp [alookup, h]
  | cons p g ih =>
    simp only [List.map_cons]
    by_cases h1 : p.1 = c
    · simp only [if_pos h1]
      by_cases h2 : p.1 = x
      · have hx : x = c := by rw [← h2, h1]
        simp [alookup, h2, hx, h1]
      · have h3 : ¬ x = c := fun hxc => h2 (by rw [h1, hxc])
        simp only [alookup, if_neg h2]
        rw [ih]
        simp [h3, alookup, if_neg h2]
    · simp only [if_neg h1]
      by_cases h2 : p.1 = x
      · have h3 : ¬ x = c := fun hxc => h1 (by rw [h2, hxc])
        simp [alookup, h2, h3]
      · simp only [alookup, if_neg h2]
        rw [ih]
        by_cases h3 : x = c
        · simp [h3, alookup, if_neg (show ¬ p.1 = c from h1)]
        · simp [h3]

theorem adjOf_addEdge (g : Graph) (c d x : String) :
    adjOf (addEdge g c d) x =
      if x = c then (if d ∈ adjOf g c then adjOf g c else adjOf g c ++ [d])
      else adjOf g x := by
  unfold addEdge
  rcases h : alookup g c with _ | l
  · have hadjc : adjOf g c = [] := by simp [adjOf, h]
    by_cases h1 : x = c
    · subst h1
      unfold adjOf
      rw [alookup_append_of_none h]
      simp [alookup, h]
    · unfold adjOf
      rcases h2 : alookup g x with _ | v
      · rw [alookup_append_of_none h2]
        simp [alookup, show ¬ c = x from fun he => h1 he.symm, h1, h2]
      · rw [alookup_append_of_some h2]
        simp [h1, h2]
  · have hadjc : adjOf g c = l := by simp [adjOf, h]
    unfold adjOf
    rw [alookup_map_update g c (fun l0 => if d ∈ l0 then l0 else l0 ++ [d]) x]
    by_cases h1 : x = c
    · simp [h1, h, hadjc]
    · simp [h1]

theorem edge_addEdge_iff {g : Graph} {c d x y : String} :
    Edge (addEdge g c d) x y ↔ Edge g x y ∨ (x = c ∧ y = d) := by
  constructor
  · intro h
    unfold Edge at h
    rw [adjOf_addEdge] at h
    by_cases h1 : x = c
    · rw [if_pos h1] at h
      by_cases h2 : d ∈ adjOf g c
      · rw [if_pos h2] at h
        refine Or.inl ?_
        unfold Edge
        rw [h1]
        exact h
      · rw [if_neg h2] at h
        rcases List.mem_append.mp h with h | h
        · refine Or.inl ?_
          unfold Edge
          rw [h1]
          exact h
        · exact Or.inr ⟨h1, by simpa using h⟩
    · rw [if_neg h1] at h
      exact Or.inl h
  · intro h
    unfold Edge
    rw [adjOf_addEdge]
    rcases h with h | ⟨rfl, rfl⟩
    · by_cases h1 : x = c
      · rw [if_pos h1]
        unfold Edge at h
        rw [h1] at h
        by_cases h2 : d ∈ adjOf g c
        · rw [if_pos h2]
          exact h
        · rw [if_neg h2]
          exact List.mem_append.mpr (Or.inl h)
      · rw [if_neg h1]
        exact h
    · rw [if_pos rfl]
      by_cases h2 : y ∈ adjOf g x
      · rw [if_pos h2]
        exact h2
      · rw [if_neg h2]
        exact List.mem_append.mpr (Or.inr (List.mem_singleton.mpr rfl))

theorem reaches_addEdge_of {g : Graph} {c d x y : String}
    (h : Reaches g x y) : Reaches (addEdge g c d) x y := by
  induction h with
  | refl => exact Reaches.refl _
  | head e _ ih => exact Reaches.head (edge_addEdge_iff.mpr (Or.inl e)) ih

theorem reaches_addEdge_decomp {g : Graph} {c d : String} (hnd : ¬ Reaches g d c) :
    ∀ {x y}, Reaches (addEdge g c d) x y →
      Reaches g x y ∨ (Reaches g x c ∧ Reaches g d y) := by
  intro x y h
  induction h with
  | refl => exact Or.inl (Reaches.refl _)
  | @head a b z he _ ih =>
    rcases edge_addEdge_iff.mp he with he | ⟨rfl, rfl⟩
    · rcases ih with ih | ⟨ih1, ih2⟩
      · exact Or.inl (Reaches.head he ih)
      · exact Or.inr ⟨Reaches.head he ih1, ih2⟩
    · rcases ih with ih | ⟨ih1, -⟩
      · exact Or.inr ⟨Reaches.refl _, ih⟩
      · exact absurd ih1 hnd

/-- Adding an edge whose insertion the cycle detector has approved (the target
does not already reach the caller) keeps the wait graph acyclic. -/
theorem acyclic_addEdge {g : Graph} {c d : String} (hac : Acyclic g)
    (hnd : ¬ Reaches g d c) : Acyclic (addEdge g c d) := by
  intro n hplus
  obtain ⟨z, he, hr⟩ := hplus
  rcases edge_addEdge_iff.mp he with he | ⟨rfl, rfl⟩
  · rcases reaches_addEdge_decomp hnd hr with h | ⟨h1, h2⟩
    · exact hac n ⟨z, he, h⟩
    · exact hnd (reaches_trans h2 (Reaches.head he h1))
  · rcases reaches_addEdge_decomp hnd hr with h | ⟨h1, -⟩
    · exact hnd h
    · exact hnd h1

theorem acyclic_nil : Acyclic ([] : Graph) := by
  intro n h
  obtain ⟨z, he, -⟩ := h
  simp [Edge, adjOf, alookup] at he

/-- Edge-set inclusion between wait graphs. -/
def SubGraph (g g' : Graph) : Prop := ∀ x y, Edge g x y → Edge g' x y

theorem subGraph_refl (g : Graph) : SubGraph g g := fun _ _ h => h

theorem subGraph_trans {g1 g2 g3 : Graph} (h1 : SubGraph g1 g2) (h2 : SubGraph g2 g3) :
    SubGraph g1 g3 := fun x y h => h2 x y (h1 x y h)

theorem subGraph_addEdge (g : Graph) (c d : String) : SubGraph g (addEdge g c d) :=
  fun _ _ h => edge_addEdge_iff.mpr (Or.inl h)

/-! ### Run decomposition and supporting notions -/

theorem run_nil (tasks : Tasks) (flag : Bool) (st : ExecState) :
    run tasks flag st [] = st := rfl

theorem run_append (tasks : Tasks) (flag : Bool) (st : ExecState) (s1 s2 : List Nat) :
    run tasks flag st (s1 ++ s2) = run tasks flag (run tasks flag st s1) s2 :=
  List.foldl_append _ _ _ _

theorem run_cons (tasks : Tasks) (flag : Bool) (st : ExecState) (i : Nat) (s : List Nat) :
    run tasks flag st (i :: s) = run tasks flag (step tasks flag st i) s := rfl

/-- `n` is a declared task name. -/
def declared (tasks : Tasks) (n : String) : Prop := (alookup tasks n).isSome

instance (tasks : Tasks) (n : String) : Decidable (declared tasks n) := by
  unfold declared; infer_instance

/-- How many times the call invokes `n`'s unit body: once for a declared
invocable entry, never otherwise. -/
def invokedTarget (tasks : Tasks) (n : String) : Nat :=
  match alookup tasks n with
  | some (.fn _) => 1
  | _ => 0

/-- Number of `invoked n` events in the log. -/
def countInvoked : List Event → String → Nat
  | [], _ => 0
  | e :: l, n => (if e = .invoked n then 1 else 0) + countInvoked l n

/-- The names of all units currently suspended on some resolver queue
(enumerated through the declared task names). -/
def waiterNamesR (tasks : Tasks) (R : String → List Waiter) : List String :=
  (tasks.map Prod.fst).flatMap (fun d => (R d).map Prod.fst)

/-- The names of all units still running or suspended: each declared task is
here until it settles. -/
def activeNames (tasks : Tasks) (st : ExecState) : List String :=
  st.threads.map Prod.fst ++ waiterNamesR tasks st.resolvers

theorem mupd_self {α : Type} (m : String → Option α) (k : String) (v : α) :
    mupd m k v k = some v := by simp [mupd]

theorem mupd_ne {α : Type} (m : String → Option α) {k n : String} (v : α) (h : n ≠ k) :
    mupd m k v n = m n := by simp [mupd, h]

theorem perm_getElem_eraseIdx : ∀ (l : List (String × TaskBody)) (i : Nat)
    (x : String × TaskBody), l[i]? = some x → l.Perm (x :: l.eraseIdx i) := by
  intro l
  induction l with
  | nil => intro i x h; simp at h
  | cons a l ih =>
    intro i x h
    match i with
    | 0 =>
      simp at h
      subst h
      simp
    | i + 1 =>
      simp only [List.getElem?_cons_succ] at h
      have h1 := ih i x h
      have h2 : (a :: l).Perm (a :: x :: l.eraseIdx i) := List.Perm.cons a h1
      have h3 : (a :: x :: l.eraseIdx i).Perm (x :: a :: l.eraseIdx i) :=
        List.Perm.swap _ _ _
      have h4 := h2.trans h3
      simpa [List.eraseIdx_cons_succ] using h4

theorem flatMap_congr_of_eq_on {K : List String} {f1 f2 : String → List String}
    (h : ∀ d ∈ K, f1 d = f2 d) : K.flatMap f1 = K.flatMap f2 := by
  induction K with
  | nil => rfl
  | cons k K ih =>
    simp only [List.flatMap_cons]
    rw [h k (List.mem_cons_self k K), ih (fun d hd => h d (List.mem_cons_of_mem _ hd))]

/-- Splitting the waiter-name enumeration at one declared name: updating that
name's queue to `Q` contributes exactly `Q`'s waiter names, independently of
the rest. -/
theorem waiterNamesR_split {tasks : Tasks} (hk : (tasks.map Prod.fst).Nodup)
    {name : String} (hmem : name ∈ tasks.map Prod.fst) (R : String → List Waiter) :
    ∃ L, ∀ Q : List Waiter,
      (waiterNamesR tasks (fun n => if n = name then Q else R n)).Perm
        (Q.map Prod.fst ++ L) := by
  unfold waiterNamesR
  revert hk hmem
  generalize tasks.map Prod.fst = K
  intro hk hmem
  induction K with
  | nil => exact absurd hmem (List.not_mem_nil name)
  | cons k K ih =>
    by_cases h1 : k = name
    · subst h1
      have hnk : k ∉ K := (List.nodup_cons.mp hk).1
      refine ⟨K.flatMap (fun d => (R d).map Prod.fst), fun Q => ?_⟩
      have hrest : (K.flatMap fun d => ((if d = k then Q else R d)).map Prod.fst) =
          K.flatMap (fun d => (R d).map Prod.fst) := by
        apply flatMap_congr_of_eq_on
        intro d hd
        have hne : ¬ (d = k) := fun he => hnk (he ▸ hd)
        rw [if_neg hne]
      simp only [List.flatMap_cons, hrest]
      simp
    · have hmem' : name ∈ K := by
        rcases List.mem_cons.mp hmem with h | h
        · exact absurd h.symm h1
        · exact h
      obtain ⟨L, hL⟩ := ih (List.nodup_cons.mp hk).2 hmem'
      refine ⟨(R k).map Prod.fst ++ L, fun Q => ?_⟩
      simp only [List.flatMap_cons, if_neg h1]
      have h2 := List.Perm.append_left ((R k).map Prod.fst) (hL Q)
      have h3 : ((R k).map Prod.fst ++ (Q.map Prod.fst ++ L)).Perm
          (Q.map Prod.fst ++ ((R k).map Prod.fst ++ L)) := by
        rw [← List.append_assoc, ← List.append_assoc]
        exact List.Perm.append_right L List.perm_append_comm
      exact h2.trans h3

theorem waiterNamesR_eq_update (tasks : Tasks) (R : String → List Waiter) (name : String) :
    waiterNamesR tasks R =
      waiterNamesR tasks (fun n => if n = name then R name else R n) := by
  unfold waiterNamesR
  apply flatMap_congr_of_eq_on
  intro d _
  by_cases h : d = name
  · simp [h]
  · simp [h]

theorem countInvoked_append (l1 l2 : List Event) (n : String) :
    countInvoked (l1 ++ l2) n = countInvoked l1 n + countInvoked l2 n := by
  induction l1 with
  | nil => simp [countInvoked]
  | cons e l1 ih => simp [countInvoked, ih]; omega

theorem countInvoked_map_fst_zero {β : Type} (ws : List β) (f : β → Event)
    (hf : ∀ w, ∀ m, f w ≠ .invoked m) (n : String) :
    countInvoked (ws.map f) n = 0 := by
  induction ws with
  | nil => rfl
  | cons w ws ih => simp [countInvoked, ih, hf w n]

theorem mem_keys_of_alookup {α : Type} {l : List (String × α)} {n : String}
    (h : (alookup l n).isSome) : n ∈ l.map Prod.fst := by
  rcases h2 : alookup l n with _ | v
  · rw [h2] at h; simp at h
  · exact alookup_mem_keys h2

theorem alookup_of_mem_keys {α : Type} {l : List (String × α)} {n : String}
    (h : n ∈ l.map Prod.fst) : (alookup l n).isSome := by
  induction l with
  | nil => simp at h
  | cons p l ih =>
    simp only [List.map_cons, List.mem_cons] at h
    by_cases h1 : p.1 = n
    · simp [alookup, h1]
    · rcases h with h | h
      · exact absurd h.symm h1
      · simp only [alookup, if_neg h1]
        exact ih h

theorem firstErrorIn_eq_none_iff (l : List Event) :
    firstErrorIn l = none ↔ ∀ n e, Event.settledErr n e ∉ l := by
  induction l with
  | nil => simp [firstErrorIn]
  | cons ev l ih =>
    cases ev with
    | settledErr m e0 =>
      simp [firstErrorIn]
      exact ⟨m, e0, fun h => absurd rfl (h rfl)⟩
    | invoked m => simp [firstErrorIn, ih]
    | settledOk m v => simp [firstErrorIn, ih]
    | observed a b v => simp [firstErrorIn, ih]
    | observedErr a b e0 => simp [firstErrorIn, ih]

theorem firstErrorIn_mem {l : List Event} {e : Value} (h : firstErrorIn l = some e) :
    ∃ n, Event.settledErr n e ∈ l := by
  induction l with
  | nil => simp [firstErrorIn] at h
  | cons ev l ih =>
    cases ev with
    | settledErr m e0 =>
      simp [firstErrorIn] at h
      exact ⟨m, by simp [h]⟩
    | invoked m =>
      obtain ⟨n, hn⟩ := ih (by simpa [firstErrorIn] using h)
      exact ⟨n, List.mem_cons_of_mem _ hn⟩
    | settledOk m v =>
      obtain ⟨n, hn⟩ := ih (by simpa [firstErrorIn] using h)
      exact ⟨n, List.mem_cons_of_mem _ hn⟩
    | observed a b v =>
      obtain ⟨n, hn⟩ := ih (by simpa [firstErrorIn] using h)
      exact ⟨n, List.mem_cons_of_mem _ hn⟩
    | observedErr a b e0 =>
      obtain ⟨n, hn⟩ := ih (by simpa [firstErrorIn] using h)
      exact ⟨n, List.mem_cons_of_mem _ hn⟩

/-- The executor's well-formedness invariant, established by `initState` and
preserved by every cooperative step: names never occur twice among the running
and suspended units; an active unit is unsettled; resolver queues exist only
for declared, unsettled targets and their waiters hold recorded wait edges;
settlement is exclusive and permanent; `returnValue` mirrors the stores
according to the aggregation mode; the ghost log is consistent with the
stores; and the wait graph is acyclic. -/
structure Inv (tasks : Tasks) (flag : Bool) (st : ExecState) : Prop where
  keysNodup : (tasks.map Prod.fst).Nodup
  activeNodup : (activeNames tasks st).Nodup
  activeDeclared : ∀ n ∈ activeNames tasks st, declared tasks n
  activeUnsettled : ∀ n ∈ activeNames tasks st, st.results n = none ∧ st.errors n = none
  resolversUndeclared : ∀ n, ¬ declared tasks n → st.resolvers n = []
  resolversUnsettled : ∀ d, st.resolvers d ≠ [] → st.results d = none ∧ st.errors d = none
  waiterEdge : ∀ d w, w ∈ st.resolvers d → Edge st.waitingFor w.1 d
  settledDisjoint : ∀ n, st.results n = none ∨ st.errors n = none
  resultsDeclared : ∀ n, st.results n ≠ none → declared tasks n
  errorsDeclared : ∀ n, st.errors n ≠ none → declared tasks n
  partitionActive : ∀ n, declared tasks n →
    n ∈ activeNames tasks st ∨ st.results n ≠ none ∨ st.errors n ≠ none
  rvFalse : flag = false → ∀ n, st.returnValue n = (st.results n).map RVal.raw
  rvTrue : flag = true → ∀ n, st.returnValue n =
    (match st.results n with
     | some v => some (.fulfilled v)
     | none => (st.errors n).map RVal.rejected)
  logInvoked : ∀ n, countInvoked st.log n = invokedTarget tasks n
  logObserved : ∀ c d v, Event.observed c d v ∈ st.log → st.results d = some v
  logObservedErr : ∀ c d e, Event.observedErr c d e ∈ st.log → st.errors d = some e
  logSettledOk : ∀ n v, Event.settledOk n v ∈ st.log ↔ st.results n = some v
  logSettledErr : ∀ n e, Event.settledErr n e ∈ st.log ↔ st.errors n = some e
  graphAcyclic : Acyclic st.waitingFor

/-! ### Branch characterisations of `waitForDep` and `step` -/

theorem waitForDep_unknown {tasks : Tasks} {c dep : String} {k h : Value → TaskBody}
    {st : ExecState} (hunk : (alookup tasks dep).isNone = true) :
    waitForDep tasks c dep k h st = (.now (.err (.error (unknownMsg dep))), st) := by
  unfold waitForDep
  rw [if_pos hunk]

theorem waitForDep_self {tasks : Tasks} {c dep : String} {k h : Value → TaskBody}
    {st : ExecState} (hdec : ¬ (alookup tasks dep).isNone = true) (hself : c = dep) :
    waitForDep tasks c dep k h st = (.now (.err (.error (selfMsg c dep))), st) := by
  unfold waitForDep
  rw [if_neg hdec, if_pos hself]

theorem waitForDep_cycle {tasks : Tasks} {c dep : String} {k h : Value → TaskBody}
    {st : ExecState} (hdec : ¬ (alookup tasks dep).isNone = true) (hself : ¬ c = dep)
    (hcyc : hasCyclePath st.waitingFor dep c = true) :
    waitForDep tasks c dep k h st =
      (.now (.err (.error (cycleMsg c dep st.waitingFor))), st) := by
  unfold waitForDep
  rw [if_neg hdec, if_neg hself, if_pos hcyc]

theorem waitForDep_fastOk {tasks : Tasks} {c dep : String} {k h : Value → TaskBody}
    {st : ExecState} {v : Value} (hdec : ¬ (alookup tasks dep).isNone = true)
    (hself : ¬ c = dep) (hcyc : ¬ hasCyclePath st.waitingFor dep c = true)
    (hres : st.results dep = some v) :
    waitForDep tasks c dep k h st =
      (.now (.ok v),
        { st with waitingFor := addEdge st.waitingFor c dep,
                  log := st.log ++ [.observed c dep v] }) := by
  unfold waitForDep
  rw [if_neg hdec, if_neg hself, if_neg hcyc]
  simp only [hres]

theorem waitForDep_fastErr {tasks : Tasks} {c dep : String} {k h : Value → TaskBody}
    {st : ExecState} {e : Value} (hdec : ¬ (alookup tasks dep).isNone = true)
    (hself : ¬ c = dep) (hcyc : ¬ hasCyclePath st.waitingFor dep c = true)
    (hres : st.results dep = none) (herr : st.errors dep = some e) :
    waitForDep tasks c dep k h st =
      (.now (.err e),
        { st with waitingFor := addEdge st.waitingFor c dep,
                  log := st.log ++ [.observedErr c dep e] }) := by
  unfold waitForDep
  rw [if_neg hdec, if_neg hself, if_neg hcyc]
  simp only [hres, herr]

theorem waitForDep_block {tasks : Tasks} {c dep : String} {k h : Value → TaskBody}
    {st : ExecState} (hdec : ¬ (alookup tasks dep).isNone = true)
    (hself : ¬ c = dep) (hcyc : ¬ hasCyclePath st.waitingFor dep c = true)
    (hres : st.results dep = none) (herr : st.errors dep = none) :
    waitForDep tasks c dep k h st =
      (.wait,
        { st with waitingFor := addEdge st.waitingFor c dep,
                  resolvers := fun n =>
                    if n = dep then st.resolvers dep ++ [(c, k, h)] else st.resolvers n }) := by
  unfold waitForDep
  rw [if_neg hdec, if_neg hself, if_neg hcyc]
  simp only [hres, herr]

theorem step_none {tasks : Tasks} {flag : Bool} {st : ExecState} {idx : Nat}
    (hsel : st.threads[idx % st.threads.length]? = none) :
    step tasks flag st idx = st := by
  unfold step
  rw [hsel]

theorem step_ret {tasks : Tasks} {flag : Bool} {st : ExecState} {idx : Nat}
    {name : String} {v : Value}
    (hsel : st.threads[idx % st.threads.length]? = some (name, .ret v)) :
    step tasks flag st idx =
      handleResult flag name v
        { st with threads := st.threads.eraseIdx (idx % st.threads.length) } := by
  unfold step
  rw [hsel]

theorem step_thr {tasks : Tasks} {flag : Bool} {st : ExecState} {idx : Nat}
    {name : String} {e : Value}
    (hsel : st.threads[idx % st.threads.length]? = some (name, .thr e)) :
    step tasks flag st idx =
      handleError flag name e
        { st with threads := st.threads.eraseIdx (idx % st.threads.length) } := by
  unfold step
  rw [hsel]

theorem step_pause {tasks : Tasks} {flag : Bool} {st : ExecState} {idx : Nat}
    {name : String} {k : TaskBody}
    (hsel : st.threads[idx % st.threads.length]? = some (name, .pause k)) :
    step tasks flag st idx =
      { st with threads := st.threads.eraseIdx (idx % st.threads.length) ++ [(name, k)] } := by
  unfold step
  rw [hsel]

theorem step_get {tasks : Tasks} {flag : Bool} {st : ExecState} {idx : Nat}
    {name dep : String} {k h : Value → TaskBody}
    (hsel : st.threads[idx % st.threads.length]? = some (name, .get dep k h)) :
    step tasks flag st idx =
      match waitForDep tasks name dep k h
        { st with threads := st.threads.eraseIdx (idx % st.threads.length) } with
      | (.now (.ok v), st1) => { st1 with threads := st1.threads ++ [(name, k v)] }
      | (.now (.err e), st1) => { st1 with threads := st1.threads ++ [(name, h e)] }
      | (.wait, st1) => st1 := by
  unfold step
  rw [hsel]

/-! ### The invariant holds initially -/

theorem spawn_fst (p : String × TaskEntry) : (spawn p).1 = p.1 := by
  cases hp : p.2 <;> simp [spawn, hp]

theorem threads_init_names (tasks : Tasks) :
    (tasks.map spawn).map Prod.fst = tasks.map Prod.fst := by
  rw [List.map_map]
  exact List.map_congr_left (fun p _ => spawn_fst p)

theorem waiterNamesR_empty (tasks : Tasks) : waiterNamesR tasks (fun _ => []) = [] := by
  unfold waiterNamesR
  induction tasks.map Prod.fst with
  | nil => rfl
  | cons k K ih => simp [List.flatMap_cons, ih]

theorem countInvoked_initLog_zero {tasks : Tasks} {n : String}
    (h : n ∉ tasks.map Prod.fst) :
    countInvoked (tasks.filterMap
      (fun p => match p.2 with | .fn _ => some (.invoked p.1) | .notFn => none)) n = 0 := by
  induction tasks with
  | nil => rfl
  | cons p l ih =>
    have hn : ¬ p.1 = n := by
      intro he
      exact h (by simp [he])
    have hnl : n ∉ l.map Prod.fst := fun hm => h (by simp [hm])
    cases hp : p.2 with
    | fn b =>
      simp only [List.filterMap_cons, hp]
      simp [countInvoked, ih hnl, Event.invoked.injEq, hn]
    | notFn =>
      simp only [List.filterMap_cons, hp]
      exact ih hnl

theorem invokedTarget_zero {tasks : Tasks} {n : String} (h : n ∉ tasks.map Prod.fst) :
    invokedTarget tasks n = 0 := by
  unfold invokedTarget
  rcases h2 : alookup tasks n with _ | v
  · rfl
  · exact absurd (alookup_mem_keys h2) h

theorem logInvoked_init {tasks : Tasks} (hk : (tasks.map Prod.fst).Nodup) (n : String) :
    countInvoked (tasks.filterMap
      (fun p => match p.2 with | .fn _ => some (.invoked p.1) | .notFn => none)) n =
      invokedTarget tasks n := by
  induction tasks with
  | nil => rfl
  | cons p l ih =>
    rw [List.map_cons, List.nodup_cons] at hk
    obtain ⟨hp1, hkl⟩ := hk
    by_cases hn : p.1 = n
    · have hnl : n ∉ l.map Prod.fst := hn ▸ hp1
      cases hp : p.2 with
      | fn b =>
        simp only [List.filterMap_cons, hp]
        simp [countInvoked, hn, countInvoked_initLog_zero hnl, invokedTarget, alookup, hp]
      | notFn =>
        simp only [List.filterMap_cons, hp]
        rw [countInvoked_initLog_zero hnl]
        unfold invokedTarget
        simp [alookup, hn, hp]
    · have hTgt : invokedTarget (p :: l) n = invokedTarget l n := by
        unfold invokedTarget
        simp [alookup, hn]
      cases hp : p.2 with
      | fn b =>
        simp only [List.filterMap_cons, hp]
        rw [hTgt, ← ih hkl]
        simp [countInvoked, Event.invoked.injEq, hn]
      | notFn =>
        simp only [List.filterMap_cons, hp]
        rw [ih hkl, hTgt]

theorem inv_init (tasks : Tasks) (flag : Bool) (hk : (tasks.map Prod.fst).Nodup) :
    Inv tasks flag (initState tasks) := by
  have hactive : activeNames tasks (initState tasks) = tasks.map Prod.fst := by
    unfold activeNames initState
    simp only [waiterNamesR_empty, List.append_nil]
    exact threads_init_names tasks
  refine ⟨hk, ?_, ?_, ?_, ?_, ?_, ?_, ?_, ?_, ?_, ?_, ?_, ?_, ?_, ?_, ?_, ?_, ?_, ?_⟩
  · rw [hactive]; exact hk
  · rw [hactive]; intro n hn; exact alookup_of_mem_keys hn
  · intro n _; exact ⟨rfl, rfl⟩
  · intro n _; rfl
  · intro d _; exact ⟨rfl, rfl⟩
  · intro d w hw; simp [initState] at hw
  · intro n; exact Or.inl rfl
  · intro n h; exact absurd rfl h
  · intro n h; exact absurd rfl h
  · intro n hd; rw [hactive]; exact Or.inl (mem_keys_of_alookup hd)
  · intro _ n; rfl
  · intro _ n; rfl
  · intro n; exact logInvoked_init hk n
  · intro c d v h
    exfalso
    simp only [initState] at h
    rcases List.mem_filterMap.mp h with ⟨p, -, hp⟩
    cases h2 : p.2 <;> rw [h2] at hp <;> simp at hp
  · intro c d e h
    exfalso
    simp only [initState] at h
    rcases List.mem_filterMap.mp h with ⟨p, -, hp⟩
    cases h2 : p.2 <;> rw [h2] at hp <;> simp at hp
  · intro n v
    constructor
    · intro h
      exfalso
      simp only [initState] at h
      rcases List.mem_filterMap.mp h with ⟨p, -, hp⟩
      cases h2 : p.2 <;> rw [h2] at hp <;> simp at hp
    · intro h
      exact absurd h (by simp [initState])
  · intro n e
    constructor
    · intro h
      exfalso
      simp only [initState] at h
      rcases List.mem_filterMap.mp h with ⟨p, -, hp⟩
      cases h2 : p.2 <;> rw [h2] at hp <;> simp at hp
    · intro h
      exact absurd h (by simp [initState])
  · exact acyclic_nil

/-! ### Preservation of the invariant, case by case -/

theorem active_perm_continue (tasks : Tasks) {st : ExecState} {i : Nat} {name : String}
    {body : TaskBody} (hsel : st.threads[i]? = some (name, body)) (b' : TaskBody) :
    (activeNames tasks { st with threads := st.threads.eraseIdx i ++ [(name, b')] }).Perm
      (activeNames tasks st) := by
  show (((st.threads.eraseIdx i ++ [(name, b')]).map Prod.fst) ++
      waiterNamesR tasks st.resolvers).Perm
    (st.threads.map Prod.fst ++ waiterNamesR tasks st.resolvers)
  apply List.Perm.append_right
  have h1 := (perm_getElem_eraseIdx st.threads i _ hsel).map Prod.fst
  simp only [List.map_cons] at h1
  rw [List.map_append]
  simp only [List.map_cons, List.map_nil]
  exact (List.perm_append_singleton _ _).trans h1.symm

theorem inv_continue {tasks : Tasks} {flag : Bool} {st : ExecState} {i : Nat}
    {name : String} {body : TaskBody} (hInv : Inv tasks flag st)
    (hsel : st.threads[i]? = some (name, body)) (b' : TaskBody) :
    Inv tasks flag { st with threads := st.threads.eraseIdx i ++ [(name, b')] } := by
  have hperm := active_perm_continue tasks hsel b'
  refine ⟨hInv.keysNodup, ?_, ?_, ?_, hInv.resolversUndeclared, hInv.resolversUnsettled,
    hInv.waiterEdge, hInv.settledDisjoint, hInv.resultsDeclared, hInv.errorsDeclared, ?_,
    hInv.rvFalse, hInv.rvTrue, hInv.logInvoked, hInv.logObserved, hInv.logObservedErr,
    hInv.logSettledOk, hInv.logSettledErr, hInv.graphAcyclic⟩
  · exact hperm.nodup_iff.mpr hInv.activeNodup
  · intro n hn
    exact hInv.activeDeclared n (hperm.mem_iff.mp hn)
  · intro n hn
    exact hInv.activeUnsettled n (hperm.mem_iff.mp hn)
  · intro n hd
    rcases hInv.partitionActive n hd with h | h
    · exact Or.inl (hperm.mem_iff.mpr h)
    · exact Or.inr h

theorem inv_continue_edge {tasks : Tasks} {flag : Bool} {st : ExecState} {i : Nat}
    {name : String} {body : TaskBody} (hInv : Inv tasks flag st)
    (hsel : st.threads[i]? = some (name, body)) (b' : TaskBody) {dep : String}
    (hnr : ¬ Reaches st.waitingFor dep name) {ev : Event}
    (hobs : ∀ c2 d2 v2, ev = Event.observed c2 d2 v2 → st.results d2 = some v2)
    (hobsE : ∀ c2 d2 e2, ev = Event.observedErr c2 d2 e2 → st.errors d2 = some e2)
    (hnotOk : ∀ n2 v2, ev ≠ Event.settledOk n2 v2)
    (hnotErr : ∀ n2 e2, ev ≠ Event.settledErr n2 e2)
    (hnotInv : ∀ m, ev ≠ Event.invoked m) :
    Inv tasks flag
      { st with threads := st.threads.eraseIdx i ++ [(name, b')],
                waitingFor := addEdge st.waitingFor name dep,
                log := st.log ++ [ev] } := by
  have hperm : (activeNames tasks
      { st with threads := st.threads.eraseIdx i ++ [(name, b')],
                waitingFor := addEdge st.waitingFor name dep,
                log := st.log ++ [ev] }).Perm (activeNames tasks st) :=
    active_perm_continue tasks hsel b'
  refine ⟨hInv.keysNodup, ?_, ?_, ?_, hInv.resolversUndeclared, hInv.resolversUnsettled,
    ?_, hInv.settledDisjoint, hInv.resultsDeclared, hInv.errorsDeclared, ?_,
    hInv.rvFalse, hInv.rvTrue, ?_, ?_, ?_, ?_, ?_, ?_⟩
  · exact hperm.nodup_iff.mpr hInv.activeNodup
  · intro n hn
    exact hInv.activeDeclared n (hperm.mem_iff.mp hn)
  · intro n hn
    exact hInv.activeUnsettled n (hperm.mem_iff.mp hn)
  · intro d w hw
    exact subGraph_addEdge st.waitingFor name dep w.1 d (hInv.waiterEdge d w hw)
  · intro n hd
    rcases hInv.partitionActive n hd with h | h
    · exact Or.inl (hperm.mem_iff.mpr h)
    · exact Or.inr h
  · intro n
    show countInvoked (st.log ++ [ev]) n = invokedTarget tasks n
    rw [countInvoked_append]
    have h0 : countInvoked [ev] n = 0 := by
      simp [countInvoked, hnotInv n]
    rw [h0, Nat.add_zero]
    exact hInv.logInvoked n
  · intro c2 d2 v2 hmem
    rcases List.mem_append.mp hmem with hm | hm
    · exact hInv.logObserved c2 d2 v2 hm
    · exact hobs c2 d2 v2 (List.mem_singleton.mp hm).symm
  · intro c2 d2 e2 hmem
    rcases List.mem_append.mp hmem with hm | hm
    · exact hInv.logObservedErr c2 d2 e2 hm
    · exact hobsE c2 d2 e2 (List.mem_singleton.mp hm).symm
  · intro n v
    constructor
    · intro hmem
      rcases List.mem_append.mp hmem with hm | hm
      · exact (hInv.logSettledOk n v).mp hm
      · exact absurd (List.mem_singleton.mp hm).symm (hnotOk n v)
    · intro hr
      exact List.mem_append.mpr (Or.inl ((hInv.logSettledOk n v).mpr hr))
  · intro n e
    constructor
    · intro hmem
      rcases List.mem_append.mp hmem with hm | hm
      · exact (hInv.logSettledErr n e).mp hm
      · exact absurd (List.mem_singleton.mp hm).symm (hnotErr n e)
    · intro hr
      exact List.mem_append.mpr (Or.inl ((hInv.logSettledErr n e).mpr hr))
  · exact acyclic_addEdge hInv.graphAcyclic hnr

theorem active_perm_block {tasks : Tasks} {st : ExecState} {i : Nat} {name dep : String}
    {body : TaskBody} (k2 h2 : Value → TaskBody) (hk : (tasks.map Prod.fst).Nodup)
    (hsel : st.threads[i]? = some (name, body)) (hdep : dep ∈ tasks.map Prod.fst) :
    (activeNames tasks
      { st with threads := st.threads.eraseIdx i,
                waitingFor := addEdge st.waitingFor name dep,
                resolvers := fun n => if n = dep then st.resolvers dep ++ [(name, k2, h2)]
                  else st.resolvers n }).Perm (activeNames tasks st) := by
  obtain ⟨L, hL⟩ := waiterNamesR_split hk hdep st.resolvers
  have hWold : (waiterNamesR tasks st.resolvers).Perm
      ((st.resolvers dep).map Prod.fst ++ L) := by
    rw [waiterNamesR_eq_update tasks st.resolvers dep]
    exact hL (st.resolvers dep)
  have hWnew := hL (st.resolvers dep ++ [(name, k2, h2)])
  rw [List.map_append] at hWnew
  have hnew2 : (activeNames tasks
      { st with threads := st.threads.eraseIdx i,
                waitingFor := addEdge st.waitingFor name dep,
                resolvers := fun n => if n = dep then st.resolvers dep ++ [(name, k2, h2)]
                  else st.resolvers n }).Perm
      ((st.threads.eraseIdx i).map Prod.fst ++
        ((st.resolvers dep).map Prod.fst ++ (name :: L))) := by
    show ((st.threads.eraseIdx i).map Prod.fst ++
        waiterNamesR tasks (fun n => if n = dep then st.resolvers dep ++ [(name, k2, h2)]
          else st.resolvers n)).Perm _
    refine List.Perm.append_left _ ?_
    refine hWnew.trans ?_
    rw [List.append_assoc]
    simp
  have hmid : ((st.threads.eraseIdx i).map Prod.fst ++
      ((st.resolvers dep).map Prod.fst ++ (name :: L))).Perm
      (name :: ((st.threads.eraseIdx i).map Prod.fst ++
        ((st.resolvers dep).map Prod.fst ++ L))) := by
    rw [← List.append_assoc]
    refine List.Perm.trans List.perm_middle ?_
    rw [List.append_assoc]
  have hold : (activeNames tasks st).Perm
      (name :: ((st.threads.eraseIdx i).map Prod.fst ++
        ((st.resolvers dep).map Prod.fst ++ L))) := by
    show (st.threads.map Prod.fst ++ waiterNamesR tasks st.resolvers).Perm _
    have hth : (st.threads.map Prod.fst).Perm
        (name :: (st.threads.eraseIdx i).map Prod.fst) := by
      have h1 := (perm_getElem_eraseIdx st.threads i _ hsel).map Prod.fst
      simpa using h1
    exact (List.Perm.append hth hWold).trans (List.Perm.refl _)
  exact (hnew2.trans hmid).trans hold.symm

theorem inv_block {tasks : Tasks} {flag : Bool} {st : ExecState} {i : Nat}
    {name dep : String} {body : TaskBody} {k2 h2 : Value → TaskBody}
    (hInv : Inv tasks flag st)
    (hsel : st.threads[i]? = some (name, body))
    (hdep : dep ∈ tasks.map Prod.fst)
    (hnr : ¬ Reaches st.waitingFor dep name)
    (hres : st.results dep = none) (herr : st.errors dep = none) :
    Inv tasks flag
      { st with threads := st.threads.eraseIdx i,
                waitingFor := addEdge st.waitingFor name dep,
                resolvers := fun n => if n = dep then st.resolvers dep ++ [(name, k2, h2)]
                  else st.resolvers n } := by
  have hperm := active_perm_block k2 h2 hInv.keysNodup hsel hdep
  refine ⟨hInv.keysNodup, ?_, ?_, ?_, ?_, ?_, ?_, hInv.settledDisjoint,
    hInv.resultsDeclared, hInv.errorsDeclared, ?_, hInv.rvFalse, hInv.rvTrue,
    hInv.logInvoked, hInv.logObserved, hInv.logObservedErr, hInv.logSettledOk,
    hInv.logSettledErr, ?_⟩
  · exact hperm.nodup_iff.mpr hInv.activeNodup
  · intro n hn
    exact hInv.activeDeclared n (hperm.mem_iff.mp hn)
  · intro n hn
    exact hInv.activeUnsettled n (hperm.mem_iff.mp hn)
  · intro n hnd
    show (if n = dep then st.resolvers dep ++ [(name, k2, h2)] else st.resolvers n) = []
    have hne : ¬ n = dep := by
      intro he
      exact hnd (he ▸ alookup_of_mem_keys hdep)
    rw [if_neg hne]
    exact hInv.resolversUndeclared n hnd
  · intro d hd
    by_cases hde : d = dep
    · subst hde
      exact ⟨hres, herr⟩
    · refine hInv.resolversUnsettled d ?_
      have hd2 : (if d = dep then st.resolvers dep ++ [(name, k2, h2)] else st.resolvers d) ≠ [] := hd
      rwa [if_neg hde] at hd2
  · intro d w hw
    by_cases hde : d = dep
    · subst hde
      have hw2 : w ∈ (if d = d then st.resolvers d ++ [(name, k2, h2)] else st.resolvers d) := hw
      rw [if_pos rfl] at hw2
      rcases List.mem_append.mp hw2 with hw3 | hw3
      · exact subGraph_addEdge _ _ _ _ _ (hInv.waiterEdge d w hw3)
      · have hweq : w = (name, k2, h2) := List.mem_singleton.mp hw3
        subst hweq
        exact edge_addEdge_iff.mpr (Or.inr ⟨rfl, rfl⟩)
    · have hw2 : w ∈ (if d = dep then st.resolvers dep ++ [(name, k2, h2)] else st.resolvers d) := hw
      rw [if_neg hde] at hw2
      exact subGraph_addEdge _ _ _ _ _ (hInv.waiterEdge d w hw2)
  · intro n hd
    rcases hInv.partitionActive n hd with h | h
    · exact Or.inl (hperm.mem_iff.mpr h)
    · exact Or.inr h
  · exact acyclic_addEdge hInv.graphAcyclic hnr

theorem sel_mem_threads {st : ExecState} {i : Nat} {name : String} {body : TaskBody}
    (hsel : st.threads[i]? = some (name, body)) : (name, body) ∈ st.threads :=
  (perm_getElem_eraseIdx st.threads i _ hsel).mem_iff.mpr
    (List.mem_cons_self _ _)

theorem sel_mem_active (tasks : Tasks) {st : ExecState} {i : Nat} {name : String}
    {body : TaskBody} (hsel : st.threads[i]? = some (name, body)) :
    name ∈ activeNames tasks st := by
  unfold activeNames
  refine List.mem_append.mpr (Or.inl ?_)
  exact List.mem_map.mpr ⟨(name, body), sel_mem_threads hsel, rfl⟩

theorem active_perm_settle {tasks : Tasks} {st : ExecState} {i : Nat} {name : String}
    {body : TaskBody} (hk : (tasks.map Prod.fst).Nodup)
    (hsel : st.threads[i]? = some (name, body)) (hname : name ∈ tasks.map Prod.fst)
    (resumed : List (String × TaskBody))
    (hrn : resumed.map Prod.fst = (st.resolvers name).map Prod.fst) :
    (activeNames tasks st).Perm
      (name :: ((st.threads.eraseIdx i ++ resumed).map Prod.fst ++
        waiterNamesR tasks (fun n => if n = name then [] else st.resolvers n))) := by
  obtain ⟨L, hL⟩ := waiterNamesR_split hk hname st.resolvers
  have hWold : (waiterNamesR tasks st.resolvers).Perm
      ((st.resolvers name).map Prod.fst ++ L) := by
    rw [waiterNamesR_eq_update tasks st.resolvers name]
    exact hL (st.resolvers name)
  have hWnew : (waiterNamesR tasks (fun n => if n = name then [] else st.resolvers n)).Perm
      L := by
    have := hL []
    simpa using this
  have hth : (st.threads.map Prod.fst).Perm
      (name :: (st.threads.eraseIdx i).map Prod.fst) := by
    have h1 := (perm_getElem_eraseIdx st.threads i _ hsel).map Prod.fst
    simpa using h1
  have hold : (activeNames tasks st).Perm
      (name :: ((st.threads.eraseIdx i).map Prod.fst ++
        ((st.resolvers name).map Prod.fst ++ L))) := by
    show (st.threads.map Prod.fst ++ waiterNamesR tasks st.resolvers).Perm _
    exact List.Perm.append hth hWold
  refine hold.trans (List.Perm.cons name ?_)
  rw [List.map_append, hrn, List.append_assoc]
  refine List.Perm.append_left _ ?_
  exact List.Perm.append_left _ hWnew.symm

theorem inv_settleOk {tasks : Tasks} {flag : Bool} {st : ExecState} {i : Nat}
    {name : String} {v : Value} (hInv : Inv tasks flag st)
    (hsel : st.threads[i]? = some (name, TaskBody.ret v)) :
    Inv tasks flag (handleResult flag name v { st with threads := st.threads.eraseIdx i }) := by
  have hmemact := sel_mem_active tasks hsel
  have hdecl := hInv.activeDeclared name hmemact
  have hname : name ∈ tasks.map Prod.fst := mem_keys_of_alookup hdecl
  obtain ⟨hrnone, henone⟩ := hInv.activeUnsettled name hmemact
  show Inv tasks flag
    { results := mupd st.results name v
      errors := st.errors
      resolvers := fun n => if n = name then [] else st.resolvers n
      returnValue := mupd st.returnValue name (if flag then .fulfilled v else .raw v)
      waitingFor := st.waitingFor
      threads := st.threads.eraseIdx i ++
        (st.resolvers name).map (fun w => (w.1, w.2.1 v))
      log := st.log ++ [.settledOk name v] ++
        (st.resolvers name).map (fun w => Event.observed w.1 name v) }
  have hperm := active_perm_settle hInv.keysNodup hsel hname
    ((st.resolvers name).map (fun w => (w.1, w.2.1 v))) (by simp)
  set stN : ExecState :=
    { results := mupd st.results name v
      errors := st.errors
      resolvers := fun n => if n = name then [] else st.resolvers n
      returnValue := mupd st.returnValue name (if flag then .fulfilled v else .raw v)
      waitingFor := st.waitingFor
      threads := st.threads.eraseIdx i ++
        (st.resolvers name).map (fun w => (w.1, w.2.1 v))
      log := st.log ++ [.settledOk name v] ++
        (st.resolvers name).map (fun w => Event.observed w.1 name v) } with hstN
  have hperm2 : (activeNames tasks st).Perm (name :: activeNames tasks stN) := hperm
  have hnodup2 : (name :: activeNames tasks stN).Nodup :=
    hperm2.nodup_iff.mp hInv.activeNodup
  have hnameNot : name ∉ activeNames tasks stN := (List.nodup_cons.mp hnodup2).1
  have hsub : ∀ n ∈ activeNames tasks stN, n ∈ activeNames tasks st ∧ n ≠ name := by
    intro n hn
    constructor
    · exact hperm2.mem_iff.mpr (List.mem_cons_of_mem _ hn)
    · intro he
      exact hnameNot (he ▸ hn)
  refine ⟨hInv.keysNodup, (List.nodup_cons.mp hnodup2).2, ?_, ?_, ?_, ?_, ?_, ?_, ?_,
    hInv.errorsDeclared, ?_, ?_, ?_, ?_, ?_, ?_, ?_, ?_, hInv.graphAcyclic⟩
  · intro n hn
    exact hInv.activeDeclared n (hsub n hn).1
  · intro n hn
    obtain ⟨hmem, hne⟩ := hsub n hn
    obtain ⟨h1, h2⟩ := hInv.activeUnsettled n hmem
    exact ⟨by rw [show stN.results = mupd st.results name v from rfl, mupd_ne _ _ hne]; exact h1, h2⟩
  · intro n hnd
    have hne : ¬ n = name := fun he => hnd (he ▸ hdecl)
    show (if n = name then [] else st.resolvers n) = []
    rw [if_neg hne]
    exact hInv.resolversUndeclared n hnd
  · intro d hd
    have hd2 : (if d = name then [] else st.resolvers d) ≠ [] := hd
    by_cases hde : d = name
    · rw [if_pos hde] at hd2
      exact absurd rfl hd2
    · rw [if_neg hde] at hd2
      obtain ⟨h1, h2⟩ := hInv.resolversUnsettled d hd2
      exact ⟨by rw [show stN.results = mupd st.results name v from rfl, mupd_ne _ _ hde]; exact h1, h2⟩
  · intro d w hw
    have hw2 : w ∈ (if d = name then [] else st.resolvers d) := hw
    by_cases hde : d = name
    · rw [if_pos hde] at hw2
      exact absurd hw2 (List.not_mem_nil w)
    · rw [if_neg hde] at hw2
      exact hInv.waiterEdge d w hw2
  · intro n
    by_cases hne : n = name
    · subst hne
      exact Or.inr henone
    · rcases hInv.settledDisjoint n with h | h
      · exact Or.inl (by rw [show stN.results = mupd st.results name v from rfl, mupd_ne _ _ hne]; exact h)
      · exact Or.inr h
  · intro n hr
    by_cases hne : n = name
    · exact hne ▸ hdecl
    · refine hInv.resultsDeclared n ?_
      rw [show stN.results = mupd st.results name v from rfl, mupd_ne _ _ hne] at hr
      exact hr
  · intro n hd
    rcases hInv.partitionActive n hd with h | h | h
    · rcases List.mem_cons.mp (hperm2.mem_iff.mp h) with he | hmem
      · refine Or.inr (Or.inl ?_)
        rw [show stN.results = mupd st.results name v from rfl, he, mupd_self]
        simp
      · exact Or.inl hmem
    · refine Or.inr (Or.inl ?_)
      by_cases hne : n = name
      · rw [show stN.results = mupd st.results name v from rfl, hne, mupd_self]
        simp
      · rw [show stN.results = mupd st.results name v from rfl, mupd_ne _ _ hne]
        exact h
    · exact Or.inr (Or.inr h)
  · intro hf n
    subst hf
    by_cases hne : n = name
    · subst hne
      show mupd st.returnValue n (.raw v) n = (mupd st.results n v n).map RVal.raw
      rw [mupd_self, mupd_self]
      rfl
    · show mupd st.returnValue name (.raw v) n = (mupd st.results name v n).map RVal.raw
      rw [mupd_ne _ _ hne, mupd_ne _ _ hne]
      exact hInv.rvFalse rfl n
  · intro hf n
    subst hf
    by_cases hne : n = name
    · subst hne
      show mupd st.returnValue n (.fulfilled v) n =
        (match mupd st.results n v n with
         | some v2 => some (.fulfilled v2)
         | none => (st.errors n).map RVal.rejected)
      rw [mupd_self, mupd_self]
    · show mupd st.returnValue name (.fulfilled v) n =
        (match mupd st.results name v n with
         | some v2 => some (.fulfilled v2)
         | none => (st.errors n).map RVal.rejected)
      rw [mupd_ne _ _ hne, mupd_ne _ _ hne]
      exact hInv.rvTrue rfl n
  · intro n
    show countInvoked (st.log ++ [.settledOk name v] ++
      (st.resolvers name).map (fun w => Event.observed w.1 name v)) n = invokedTarget tasks n
    rw [countInvoked_append, countInvoked_append,
      countInvoked_map_fst_zero _ _ (by intro w m; simp)]
    simp [countInvoked]
    exact hInv.logInvoked n
  · intro c2 d2 v2 hmem
    rcases List.mem_append.mp hmem with hm | hm
    · rcases List.mem_append.mp hm with hm2 | hm2
      · have hold := hInv.logObserved c2 d2 v2 hm2
        have hne : d2 ≠ name := by
          intro he
          rw [he, hrnone] at hold
          exact Option.noConfusion hold
        rw [show stN.results = mupd st.results name v from rfl, mupd_ne _ _ hne]
        exact hold
      · exact absurd (List.mem_singleton.mp hm2) (by simp)
    · obtain ⟨w, -, hw⟩ := List.mem_map.mp hm
      obtain ⟨-, h2, h3⟩ : w.1 = c2 ∧ name = d2 ∧ v = v2 := by
        simpa using hw
      rw [show stN.results = mupd st.results name v from rfl, ← h2, ← h3, mupd_self]
  · intro c2 d2 e2 hmem
    rcases List.mem_append.mp hmem with hm | hm
    · rcases List.mem_append.mp hm with hm2 | hm2
      · exact hInv.logObservedErr c2 d2 e2 hm2
      · exact absurd (List.mem_singleton.mp hm2) (by simp)
    · obtain ⟨w, -, hw⟩ := List.mem_map.mp hm
      exact absurd hw (by simp)
  · intro n v2
    constructor
    · intro hmem
      rcases List.mem_append.mp hmem with hm | hm
      · rcases List.mem_append.mp hm with hm2 | hm2
        · have hold := (hInv.logSettledOk n v2).mp hm2
          have hne : n ≠ name := by
            intro he
            rw [he, hrnone] at hold
            exact Option.noConfusion hold
          rw [show stN.results = mupd st.results name v from rfl, mupd_ne _ _ hne]
          exact hold
        · obtain ⟨h1, h2⟩ : n = name ∧ v2 = v := by
            have h4 := List.mem_singleton.mp hm2
            simpa using h4
          rw [show stN.results = mupd st.results name v from rfl, h1, h2, mupd_self]
      · obtain ⟨w, -, hw⟩ := List.mem_map.mp hm
        exact absurd hw (by simp)
    · intro hr
      rw [show stN.results = mupd st.results name v from rfl] at hr
      by_cases hne : n = name
      · subst hne
        rw [mupd_self] at hr
        have hv : v = v2 := by injection hr
        refine List.mem_append.mpr (Or.inl (List.mem_append.mpr (Or.inr ?_)))
        rw [hv]
        exact List.mem_singleton.mpr rfl
      · rw [mupd_ne _ _ hne] at hr
        exact List.mem_append.mpr (Or.inl (List.mem_append.mpr
          (Or.inl ((hInv.logSettledOk n v2).mpr hr))))
  · intro n e2
    constructor
    · intro hmem
      rcases List.mem_append.mp hmem with hm | hm
      · rcases List.mem_append.mp hm with hm2 | hm2
        · exact (hInv.logSettledErr n e2).mp hm2
        · exact absurd (List.mem_singleton.mp hm2) (by simp)
      · obtain ⟨w, -, hw⟩ := List.mem_map.mp hm
        exact absurd hw (by simp)
    · intro hr
      exact List.mem_append.mpr (Or.inl (List.mem_append.mpr
        (Or.inl ((hInv.logSettledErr n e2).mpr hr))))

theorem inv_settleErr {tasks : Tasks} {flag : Bool} {st : ExecState} {i : Nat}
    {name : String} {e : Value} (hInv : Inv tasks flag st)
    (hsel : st.threads[i]? = some (name, TaskBody.thr e)) :
    Inv tasks flag (handleError flag name e { st with threads := st.threads.eraseIdx i }) := by
  have hmemact := sel_mem_active tasks hsel
  have hdecl := hInv.activeDeclared name hmemact
  have hname : name ∈ tasks.map Prod.fst := mem_keys_of_alookup hdecl
  obtain ⟨hrnone, henone⟩ := hInv.activeUnsettled name hmemact
  show Inv tasks flag
    { results := st.results
      errors := mupd st.errors name e
      resolvers := fun n => if n = name then [] else st.resolvers n
      returnValue := if flag then mupd st.returnValue name (.rejected e) else st.returnValue
      waitingFor := st.waitingFor
      threads := st.threads.eraseIdx i ++
        (st.resolvers name).map (fun w => (w.1, w.2.2 e))
      log := st.log ++ [.settledErr name e] ++
        (st.resolvers name).map (fun w => Event.observedErr w.1 name e) }
  have hperm := active_perm_settle hInv.keysNodup hsel hname
    ((st.resolvers name).map (fun w => (w.1, w.2.2 e))) (by simp)
  set stN : ExecState :=
    { results := st.results
      errors := mupd st.errors name e
      resolvers := fun n => if n = name then [] else st.resolvers n
      returnValue := if flag then mupd st.returnValue name (.rejected e) else st.returnValue
      waitingFor := st.waitingFor
      threads := st.threads.eraseIdx i ++
        (st.resolvers name).map (fun w => (w.1, w.2.2 e))
      log := st.log ++ [.settledErr name e] ++
        (st.resolvers name).map (fun w => Event.observedErr w.1 name e) } with hstN
  have hperm2 : (activeNames tasks st).Perm (name :: activeNames tasks stN) := hperm
  have hnodup2 : (name :: activeNames tasks stN).Nodup :=
    hperm2.nodup_iff.mp hInv.activeNodup
  have hnameNot : name ∉ activeNames tasks stN := (List.nodup_cons.mp hnodup2).1
  have hsub : ∀ n ∈ activeNames tasks stN, n ∈ activeNames tasks st ∧ n ≠ name := by
    intro n hn
    constructor
    · exact hperm2.mem_iff.mpr (List.mem_cons_of_mem _ hn)
    · intro he
      exact hnameNot (he ▸ hn)
  refine ⟨hInv.keysNodup, (List.nodup_cons.mp hnodup2).2, ?_, ?_, ?_, ?_, ?_, ?_,
    hInv.resultsDeclared, ?_, ?_, ?_, ?_, ?_, ?_, ?_, ?_, ?_, hInv.graphAcyclic⟩
  · intro n hn
    exact hInv.activeDeclared n (hsub n hn).1
  · intro n hn
    obtain ⟨hmem, hne⟩ := hsub n hn
    obtain ⟨h1, h2⟩ := hInv.activeUnsettled n hmem
    exact ⟨h1, by rw [show stN.errors = mupd st.errors name e from rfl, mupd_ne _ _ hne]; exact h2⟩
  · intro n hnd
    have hne : ¬ n = name := fun he => hnd (he ▸ hdecl)
    show (if n = name then [] else st.resolvers n) = []
    rw [if_neg hne]
    exact hInv.resolversUndeclared n hnd
  · intro d hd
    have hd2 : (if d = name then [] else st.resolvers d) ≠ [] := hd
    by_cases hde : d = name
    · rw [if_pos hde] at hd2
      exact absurd rfl hd2
    · rw [if_neg hde] at hd2
      obtain ⟨h1, h2⟩ := hInv.resolversUnsettled d hd2
      exact ⟨h1, by rw [show stN.errors = mupd st.errors name e from rfl, mupd_ne _ _ hde]; exact h2⟩
  · intro d w hw
    have hw2 : w ∈ (if d = name then [] else st.resolvers d) := hw
    by_cases hde : d = name
    · rw [if_pos hde] at hw2
      exact absurd hw2 (List.not_mem_nil w)
    · rw [if_neg hde] at hw2
      exact hInv.waiterEdge d w hw2
  · intro n
    by_cases hne : n = name
    · subst hne
      exact Or.inl hrnone
    · rcases hInv.settledDisjoint n with h | h
      · exact Or.inl h
      · exact Or.inr (by rw [show stN.errors = mupd st.errors name e from rfl, mupd_ne _ _ hne]; exact h)
  · intro n hr
    by_cases hne : n = name
    · exact hne ▸ hdecl
    · refine hInv.errorsDeclared n ?_
      rw [show stN.errors = mupd st.errors name e from rfl, mupd_ne _ _ hne] at hr
      exact hr
  · intro n hd
    rcases hInv.partitionActive n hd with h | h | h
    · rcases List.mem_cons.mp (hperm2.mem_iff.mp h) with he | hmem
      · refine Or.inr (Or.inr ?_)
        rw [show stN.errors = mupd st.errors name e from rfl, he, mupd_self]
        simp
      · exact Or.inl hmem
    · exact Or.inr (Or.inl h)
    · refine Or.inr (Or.inr ?_)
      by_cases hne : n = name
      · rw [show stN.errors = mupd st.errors name e from rfl, hne, mupd_self]
        simp
      · rw [show stN.errors = mupd st.errors name e from rfl, mupd_ne _ _ hne]
        exact h
  · intro hf n
    subst hf
    show st.returnValue n = (st.results n).map RVal.raw
    exact hInv.rvFalse rfl n
  · intro hf n
    subst hf
    by_cases hne : n = name
    · subst hne
      show mupd st.returnValue n (.rejected e) n =
        (match st.results n with
         | some v2 => some (.fulfilled v2)
         | none => (mupd st.errors n e n).map RVal.rejected)
      rw [mupd_self, hrnone, mupd_self]
      rfl
    · show mupd st.returnValue name (.rejected e) n =
        (match st.results n with
         | some v2 => some (.fulfilled v2)
         | none => (mupd st.errors name e n).map RVal.rejected)
      rw [mupd_ne _ _ hne, mupd_ne _ _ hne]
      exact hInv.rvTrue rfl n
  · intro n
    show countInvoked (st.log ++ [.settledErr name e] ++
      (st.resolvers name).map (fun w => Event.observedErr w.1 name e)) n = invokedTarget tasks n
    rw [countInvoked_append, countInvoked_append,
      countInvoked_map_fst_zero _ _ (by intro w m; simp)]
    simp [countInvoked]
    exact hInv.logInvoked n
  · intro c2 d2 v2 hmem
    rcases List.mem_append.mp hmem with hm | hm
    · rcases List.mem_append.mp hm with hm2 | hm2
      · exact hInv.logObserved c2 d2 v2 hm2
      · exact absurd (List.mem_singleton.mp hm2) (by simp)
    · obtain ⟨w, -, hw⟩ := List.mem_map.mp hm
      exact absurd hw (by simp)
  · intro c2 d2 e2 hmem
    rcases List.mem_append.mp hmem with hm | hm
    · rcases List.mem_append.mp hm with hm2 | hm2
      · have hold := hInv.logObservedErr c2 d2 e2 hm2
        have hne : d2 ≠ name := by
          intro he
          rw [he, henone] at hold
          exact Option.noConfusion hold
        rw [show stN.errors = mupd st.errors name e from rfl, mupd_ne _ _ hne]
        exact hold
      · exact absurd (List.mem_singleton.mp hm2) (by simp)
    · obtain ⟨w, -, hw⟩ := List.mem_map.mp hm
      obtain ⟨-, h2, h3⟩ : w.1 = c2 ∧ name = d2 ∧ e = e2 := by
        simpa using hw
      rw [show stN.errors = mupd st.errors name e from rfl, ← h2, ← h3, mupd_self]
  · intro n v2
    constructor
    · intro hmem
      rcases List.mem_append.mp hmem with hm | hm
      · rcases List.mem_append.mp hm with hm2 | hm2
        · exact (hInv.logSettledOk n v2).mp hm2
        · exact absurd (List.mem_singleton.mp hm2) (by simp)
      · obtain ⟨w, -, hw⟩ := List.mem_map.mp hm
        exact absurd hw (by simp)
    · intro hr
      exact List.mem_append.mpr (Or.inl (List.mem_append.mpr
        (Or.inl ((hInv.logSettledOk n v2).mpr hr))))
  · intro n e2
    constructor
    · intro hmem
      rcases List.mem_append.mp hmem with hm | hm
      · rcases List.mem_append.mp hm with hm2 | hm2
        · have hold := (hInv.logSettledErr n e2).mp hm2
          have hne : n ≠ name := by
            intro he
            rw [he, henone] at hold
            exact Option.noConfusion hold
          rw [show stN.errors = mupd st.errors name e from rfl, mupd_ne _ _ hne]
          exact hold
        · obtain ⟨h1, h2⟩ : n = name ∧ e2 = e := by
            have h4 := List.mem_singleton.mp hm2
            simpa using h4
          rw [show stN.errors = mupd st.errors name e from rfl, h1, h2, mupd_self]
      · obtain ⟨w, -, hw⟩ := List.mem_map.mp hm
        exact absurd hw (by simp)
    · intro hr
      rw [show stN.errors = mupd st.errors name e from rfl] at hr
      by_cases hne : n = name
      · subst hne
        rw [mupd_self] at hr
        have hv : e = e2 := by injection hr
        refine List.mem_append.mpr (Or.inl (List.mem_append.mpr (Or.inr ?_)))
        rw [hv]
        exact List.mem_singleton.mpr rfl
      · rw [mupd_ne _ _ hne] at hr
        exact List.mem_append.mpr (Or.inl (List.mem_append.mpr
          (Or.inl ((hInv.logSettledErr n e2).mpr hr))))

/-- The invariant is preserved by every cooperative step. -/
theorem inv_step {tasks : Tasks} {flag : Bool} {st : ExecState} (idx : Nat)
    (hInv : Inv tasks flag st) : Inv tasks flag (step tasks flag st idx) := by
  rcases hsel : st.threads[idx % st.threads.length]? with _ | ⟨name, body⟩
  · rw [step_none hsel]
    exact hInv
  · cases body with
    | ret v =>
      rw [step_ret hsel]
      exact inv_settleOk hInv hsel
    | thr e =>
      rw [step_thr hsel]
      exact inv_settleErr hInv hsel
    | pause k =>
      rw [step_pause hsel]
      exact inv_continue hInv hsel k
    | get dep k h =>
      rw [step_get hsel]
      by_cases hunk : (alookup tasks dep).isNone = true
      · rw [waitForDep_unknown hunk]
        exact inv_continue hInv hsel _
      · by_cases hself : name = dep
        · rw [waitForDep_self hunk hself]
          exact inv_continue hInv hsel _
        · by_cases hcyc : hasCyclePath st.waitingFor dep name = true
          · have hcyc2 : hasCyclePath
                ({ st with threads := st.threads.eraseIdx (idx % st.threads.length) }
                  : ExecState).waitingFor dep name = true := hcyc
            rw [waitForDep_cycle hunk hself hcyc2]
            exact inv_continue hInv hsel _
          · have hnr : ¬ Reaches st.waitingFor dep name :=
              fun hr => hcyc (hasCyclePath_iff.mpr hr)
            have hcyc2 : ¬ hasCyclePath
                ({ st with threads := st.threads.eraseIdx (idx % st.threads.length) }
                  : ExecState).waitingFor dep name = true := hcyc
            have hdec : (alookup tasks dep).isSome := by
              rcases hl : alookup tasks dep with _ | v
              · exact absurd (by rw [hl]; rfl) hunk
              · rfl
            have hdep : dep ∈ tasks.map Prod.fst := mem_keys_of_alookup hdec
            rcases hres : st.results dep with _ | v
            · have hres2 : ({ st with threads := st.threads.eraseIdx (idx % st.threads.length) }
                  : ExecState).results dep = none := hres
              rcases herr : st.errors dep with _ | e
              · have herr2 : ({ st with threads := st.threads.eraseIdx (idx % st.threads.length) }
                    : ExecState).errors dep = none := herr
                rw [waitForDep_block hunk hself hcyc2 hres2 herr2]
                exact inv_block hInv hsel hdep hnr hres herr
              · have herr2 : ({ st with threads := st.threads.eraseIdx (idx % st.threads.length) }
                    : ExecState).errors dep = some e := herr
                rw [waitForDep_fastErr hunk hself hcyc2 hres2 herr2]
                refine inv_continue_edge hInv hsel _ hnr ?_ ?_ ?_ ?_ ?_
                · intro c2 d2 v2 heq
                  exact absurd heq (by simp)
                · intro c2 d2 e2 heq
                  obtain ⟨-, h2, h3⟩ : name = c2 ∧ dep = d2 ∧ e = e2 := by simpa using heq
                  rw [← h2, ← h3]
                  exact herr
                · intro n2 v2
                  simp
                · intro n2 e2
                  simp
                · intro m
                  simp
            · have hres2 : ({ st with threads := st.threads.eraseIdx (idx % st.threads.length) }
                  : ExecState).results dep = some v := hres
              rw [waitForDep_fastOk hunk hself hcyc2 hres2]
              refine inv_continue_edge hInv hsel _ hnr ?_ ?_ ?_ ?_ ?_
              · intro c2 d2 v2 heq
                obtain ⟨-, h2, h3⟩ : name = c2 ∧ dep = d2 ∧ v = v2 := by simpa using heq
                rw [← h2, ← h3]
                exact hres
              · intro c2 d2 e2 heq
                exact absurd heq (by simp)
              · intro n2 v2
                simp
              · intro n2 e2
                simp
              · intro m
                simp

/-- The invariant holds in every state reachable along a schedule. -/
theorem inv_run {tasks : Tasks} {flag : Bool} {st : ExecState} (sched : List Nat)
    (hInv : Inv tasks flag st) : Inv tasks flag (run tasks flag st sched) := by
  induction sched generalizing st with
  | nil => exact hInv
  | cons i s ih => exact ih (inv_step i hInv)

/-- The invariant holds after running any schedule from the initial state. -/
theorem inv_exec {tasks : Tasks} {flag : Bool} (sched : List Nat)
    (hk : (tasks.map Prod.fst).Nodup) :
    Inv tasks flag (executeTasksInternal tasks flag sched) :=
  inv_run sched (inv_init tasks flag hk)

/-! ### Deadlock freedom: when no thread is runnable, nothing is left waiting -/

theorem waiterNamesR_empty_of (tasks : Tasks) {R : String → List Waiter}
    (h : ∀ d, R d = []) : waiterNamesR tasks R = [] := by
  unfold waiterNamesR
  induction tasks.map Prod.fst with
  | nil => rfl
  | cons k K ih => simp [List.flatMap_cons, h k, ih]

/-- If the runnable queue is empty, every resolver queue is empty: a nonempty
waiting set would yield an infinite walk along recorded wait edges inside a
finite set of waiting tasks, hence a cycle, contradicting acyclicity. -/
theorem no_threads_no_waiters {tasks : Tasks} {flag : Bool} {st : ExecState}
    (hInv : Inv tasks flag st) (hth : st.threads = []) : ∀ n, st.resolvers n = [] := by
  by_contra hcon
  push_neg at hcon
  obtain ⟨n0, hn0⟩ := hcon
  set S := waiterNamesR tasks st.resolvers with hS
  have hActive : activeNames tasks st = S := by
    unfold activeNames
    rw [hth]
    rfl
  -- the waiting set is nonempty
  have hx0 : ∃ x0, x0 ∈ S := by
    rcases hq : st.resolvers n0 with _ | ⟨w, ws⟩
    · exact absurd hq hn0
    · have hdecl : declared tasks n0 := by
        by_contra hnd
        exact hn0 (hInv.resolversUndeclared n0 hnd)
      have hkey : n0 ∈ tasks.map Prod.fst := mem_keys_of_alookup hdecl
      refine ⟨w.1, ?_⟩
      rw [hS]
      unfold waiterNamesR
      refine List.mem_flatMap.mpr ⟨n0, hkey, ?_⟩
      rw [hq]
      exact List.mem_map.mpr ⟨w, List.mem_cons_self _ _, rfl⟩
  obtain ⟨x0, hx0⟩ := hx0
  -- every waiting task has a recorded edge to another waiting task
  have hstep : ∀ x, ∃ y, x ∈ S → Edge st.waitingFor x y ∧ y ∈ S := by
    intro x
    by_cases hxS : x ∈ S
    · obtain ⟨d, hd, hxd⟩ := List.mem_flatMap.mp hxS
      obtain ⟨w, hw, hwx⟩ := List.mem_map.mp hxd
      have hedge : Edge st.waitingFor x d := hwx ▸ hInv.waiterEdge d w hw
      have hqne : st.resolvers d ≠ [] := by
        intro hq
        rw [hq] at hw
        exact List.not_mem_nil w hw
      obtain ⟨hr1, hr2⟩ := hInv.resolversUnsettled d hqne
      have hdd : declared tasks d := by
        by_contra hnd
        exact hqne (hInv.resolversUndeclared d hnd)
      have hdS : d ∈ S := by
        rcases hInv.partitionActive d hdd with h | h | h
        · exact hActive ▸ h
        · exact absurd hr1 h
        · exact absurd hr2 h
      exact ⟨d, fun _ => ⟨hedge, hdS⟩⟩
    · exact ⟨x, fun hx => absurd hx hxS⟩
  choose f hf using hstep
  have hit : ∀ m : Nat, f^[m] x0 ∈ S := by
    intro m
    induction m with
    | zero => exact hx0
    | succ m ih =>
      rw [Function.iterate_succ_apply']
      exact (hf _ ih).2
  have hre : ∀ a b : Nat, a ≤ b → Reaches st.waitingFor (f^[a] x0) (f^[b] x0) := by
    intro a b hab
    induction b, hab using Nat.le_induction with
    | base => exact Reaches.refl _
    | succ b hab ih =>
      rw [Function.iterate_succ_apply']
      exact reaches_snoc ih (hf _ (hit b)).1
  have hmaps : ∀ m ∈ Finset.range (S.toFinset.card + 1), f^[m] x0 ∈ S.toFinset :=
    fun m _ => List.mem_toFinset.mpr (hit m)
  obtain ⟨a, -, b, -, hab, heq⟩ :=
    Finset.exists_ne_map_eq_of_card_lt_of_maps_to
      (by rw [Finset.card_range]; omega) hmaps
  have hcyc : ∀ a b : Nat, a < b → f^[a] x0 = f^[b] x0 → False := by
    intro a b hlt he
    refine hInv.graphAcyclic (f^[a] x0) ⟨f^[a + 1] x0, ?_, ?_⟩
    · rw [Function.iterate_succ_apply']
      exact (hf _ (hit a)).1
    · have h1 := hre (a + 1) b hlt
      rw [← he] at h1
      exact h1
  rcases Nat.lt_or_ge a b with hlt | hge
  · exact hcyc a b hlt heq
  · rcases Nat.lt_or_ge b a with hlt2 | hge2
    · exact hcyc b a hlt2 heq.symm
    · exact hab (Nat.le_antisymm hge2 hge)

/-- Once no thread is runnable, every declared task has settled. -/
theorem threads_empty_settled {tasks : Tasks} {flag : Bool} {st : ExecState}
    (hInv : Inv tasks flag st) (hth : st.threads = []) :
    ∀ n, declared tasks n →
      (∃ v, st.results n = some v) ∨ (∃ e, st.errors n = some e) := by
  intro n hd
  rcases hInv.partitionActive n hd with h | h | h
  · exfalso
    have hw := no_threads_no_waiters hInv hth
    have : activeNames tasks st = [] := by
      unfold activeNames
      rw [hth, waiterNamesR_empty_of tasks hw]
      rfl
    rw [this] at h
    exact List.not_mem_nil n h
  · rcases hr : st.results n with _ | v
    · exact absurd hr h
    · exact Or.inl ⟨v, rfl⟩
  · rcases hr : st.errors n with _ | e
    · exact absurd hr h
    · exact Or.inr ⟨e, rfl⟩

/-! ### Field facts and small run-level invariants -/

theorem waitForDep_fields (tasks : Tasks) (c d : String) (k h : Value → TaskBody)
    (s : ExecState) :
    ((waitForDep tasks c d k h s).2).threads = s.threads ∧
    ((waitForDep tasks c d k h s).2).errors = s.errors ∧
    ((waitForDep tasks c d k h s).2).results = s.results ∧
    ((waitForDep tasks c d k h s).2).returnValue = s.returnValue := by
  by_cases hunk : (alookup tasks d).isNone = true
  · rw [waitForDep_unknown hunk]
    exact ⟨rfl, rfl, rfl, rfl⟩
  · by_cases hself : c = d
    · rw [waitForDep_self hunk hself]
      exact ⟨rfl, rfl, rfl, rfl⟩
    · by_cases hcyc : hasCyclePath s.waitingFor d c = true
      · rw [waitForDep_cycle hunk hself hcyc]
        exact ⟨rfl, rfl, rfl, rfl⟩
      · rcases hres : s.results d with _ | v
        · rcases herr : s.errors d with _ | e
          · rw [waitForDep_block hunk hself hcyc hres herr]
            exact ⟨rfl, rfl, rfl, rfl⟩
          · rw [waitForDep_fastErr hunk hself hcyc hres herr]
            exact ⟨rfl, rfl, rfl, rfl⟩
        · rw [waitForDep_fastOk hunk hself hcyc hres]
          exact ⟨rfl, rfl, rfl, rfl⟩

theorem step_errors_persist {tasks : Tasks} {flag : Bool} {st : ExecState} {idx : Nat}
    (hInv : Inv tasks flag st) {n : String} {e : Value}
    (h : st.errors n = some e) : (step tasks flag st idx).errors n = some e := by
  rcases hsel : st.threads[idx % st.threads.length]? with _ | ⟨name, body⟩
  · rw [step_none hsel]
    exact h
  · have hmemact := sel_mem_active tasks hsel
    obtain ⟨-, henone⟩ := hInv.activeUnsettled name hmemact
    have hne : name ≠ n := by
      intro he
      rw [he, h] at henone
      exact Option.noConfusion henone
    cases body with
    | ret v =>
      rw [step_ret hsel]
      exact h
    | thr e2 =>
      rw [step_thr hsel]
      show mupd st.errors name e2 n = some e
      rw [mupd_ne _ _ (fun h2 => hne h2.symm)]
      exact h
    | pause k =>
      rw [step_pause hsel]
      exact h
    | get dep k hh =>
      rw [step_get hsel]
      rcases hw : waitForDep tasks name dep k hh
        { st with threads := st.threads.eraseIdx (idx % st.threads.length) } with ⟨res, st1⟩
      have herr1 : st1.errors = st.errors := by
        have h2 := (waitForDep_fields tasks name dep k hh
          { st with threads := st.threads.eraseIdx (idx % st.threads.length) }).2.1
        rw [hw] at h2
        exact h2
      rcases res with o | _
      · rcases o with v | e2
        · show st1.errors n = some e
          rw [herr1]
          exact h
        · show st1.errors n = some e
          rw [herr1]
          exact h
      · show st1.errors n = some e
        rw [herr1]
        exact h

theorem mem_eraseIdx_of_mem_of_ne {l : List (String × TaskBody)} {i : Nat}
    {x y : String × TaskBody} (hx : x ∈ l) (hsel : l[i]? = some y) (hne : x ≠ y) :
    x ∈ l.eraseIdx i := by
  have hperm := perm_getElem_eraseIdx l i y hsel
  rcases List.mem_cons.mp (hperm.mem_iff.mp hx) with h | h
  · exact absurd h hne
  · exact h

/-- A unit whose remaining body is an immediate throw either is still pending
or has already settled with exactly that error. -/
theorem step_thr_pending {tasks : Tasks} {flag : Bool} {st : ExecState} {idx : Nat}
    (hInv : Inv tasks flag st) (n : String) (e : Value)
    (hp : (n, TaskBody.thr e) ∈ st.threads ∨ st.errors n = some e) :
    (n, TaskBody.thr e) ∈ (step tasks flag st idx).threads ∨
      (step tasks flag st idx).errors n = some e := by
  rcases hp with hp | hp
  · rcases hsel : st.threads[idx % st.threads.length]? with _ | ⟨name, body⟩
    · rw [step_none hsel]
      exact Or.inl hp
    · by_cases heq : (n, TaskBody.thr e) = (name, body)
      · obtain ⟨h1, h2⟩ := Prod.mk.injEq .. ▸ heq
        subst h1
        have hsel2 : st.threads[idx % st.threads.length]? = some (n, TaskBody.thr e) := by
          rw [hsel, ← h2]
        rw [step_thr hsel2]
        refine Or.inr ?_
        show mupd st.errors n e n = some e
        rw [mupd_self]
      · have hrest : (n, TaskBody.thr e) ∈
            st.threads.eraseIdx (idx % st.threads.length) :=
          mem_eraseIdx_of_mem_of_ne hp hsel heq
        cases body with
        | ret v =>
          rw [step_ret hsel]
          exact Or.inl (List.mem_append.mpr (Or.inl hrest))
        | thr e2 =>
          rw [step_thr hsel]
          exact Or.inl (List.mem_append.mpr (Or.inl hrest))
        | pause k =>
          rw [step_pause hsel]
          exact Or.inl (List.mem_append.mpr (Or.inl hrest))
        | get dep k hh =>
          rw [step_get hsel]
          rcases hw : waitForDep tasks name dep k hh
            { st with threads := st.threads.eraseIdx (idx % st.threads.length) }
            with ⟨res, st1⟩
          have hth1 : st1.threads = st.threads.eraseIdx (idx % st.threads.length) := by
            have h2 := (waitForDep_fields tasks name dep k hh
              { st with threads := st.threads.eraseIdx (idx % st.threads.length) }).1
            rw [hw] at h2
            exact h2
          rcases res with o | _
          · rcases o with v | e2
            · refine Or.inl ?_
              show (n, TaskBody.thr e) ∈ st1.threads ++ [(name, k v)]
              rw [hth1]
              exact List.mem_append.mpr (Or.inl hrest)
            · refine Or.inl ?_
              show (n, TaskBody.thr e) ∈ st1.threads ++ [(name, hh e2)]
              rw [hth1]
              exact List.mem_append.mpr (Or.inl hrest)
          · refine Or.inl ?_
            show (n, TaskBody.thr e) ∈ st1.threads
            rw [hth1]
            exact hrest
  · exact Or.inr (step_errors_persist hInv hp)

theorem run_thr_pending {tasks : Tasks} {flag : Bool} {st : ExecState} (sched : List Nat)
    (hInv : Inv tasks flag st) (n : String) (e : Value)
    (hp : (n, TaskBody.thr e) ∈ st.threads ∨ st.errors n = some e) :
    (n, TaskBody.thr e) ∈ (run tasks flag st sched).threads ∨
      (run tasks flag st sched).errors n = some e := by
  induction sched generalizing st with
  | nil => exact hp
  | cons i s ih => exact ih (inv_step i hInv) (step_thr_pending hInv n e hp)

/-! ### The wait graph only grows -/

theorem step_graph_mono (tasks : Tasks) (flag : Bool) (st : ExecState) (idx : Nat) :
    SubGraph st.waitingFor (step tasks flag st idx).waitingFor := by
  rcases hsel : st.threads[idx % st.threads.length]? with _ | ⟨name, body⟩
  · rw [step_none hsel]
    exact subGraph_refl _
  · cases body with
    | ret v =>
      rw [step_ret hsel]
      exact subGraph_refl _
    | thr e =>
      rw [step_thr hsel]
      exact subGraph_refl _
    | pause k =>
      rw [step_pause hsel]
      exact subGraph_refl _
    | get dep k hh =>
      rw [step_get hsel]
      by_cases hunk : (alookup tasks dep).isNone = true
      · rw [waitForDep_unknown hunk]
        exact subGraph_refl _
      · by_cases hself : name = dep
        · rw [waitForDep_self hunk hself]
          exact subGraph_refl _
        · by_cases hcyc : hasCyclePath st.waitingFor dep name = true
          · have hcyc2 : hasCyclePath
                ({ st with threads := st.threads.eraseIdx (idx % st.threads.length) }
                  : ExecState).waitingFor dep name = true := hcyc
            rw [waitForDep_cycle hunk hself hcyc2]
            exact subGraph_refl _
          · have hcyc2 : ¬ hasCyclePath
                ({ st with threads := st.threads.eraseIdx (idx % st.threads.length) }
                  : ExecState).waitingFor dep name = true := hcyc
            rcases hres : st.results dep with _ | v
            · have hres2 : ({ st with threads := st.threads.eraseIdx (idx % st.threads.length) }
                  : ExecState).results dep = none := hres
              rcases herr : st.errors dep with _ | e
              · have herr2 : ({ st with threads := st.threads.eraseIdx (idx % st.threads.length) }
                    : ExecState).errors dep = none := herr
                rw [waitForDep_block hunk hself hcyc2 hres2 herr2]
                exact subGraph_addEdge _ _ _
              · have herr2 : ({ st with threads := st.threads.eraseIdx (idx % st.threads.length) }
                    : ExecState).errors dep = some e := herr
                rw [waitForDep_fastErr hunk hself hcyc2 hres2 herr2]
                exact subGraph_addEdge _ _ _
            · have hres2 : ({ st with threads := st.threads.eraseIdx (idx % st.threads.length) }
                  : ExecState).results dep = some v := hres
              rw [waitForDep_fastOk hunk hself hcyc2 hres2]
              exact subGraph_addEdge _ _ _

theorem run_graph_mono (tasks : Tasks) (flag : Bool) (st : ExecState) (sched : List Nat) :
    SubGraph st.waitingFor (run tasks flag st sched).waitingFor := by
  induction sched generalizing st with
  | nil => exact subGraph_refl _
  | cons i s ih =>
    exact subGraph_trans (step_graph_mono tasks flag st i) (ih (step tasks flag st i))

/-! ### The executor core is independent of the aggregation flag -/

/-- Equality of all state components except `returnValue` (the only part the
aggregation mode touches). -/
def coreEq (s1 s2 : ExecState) : Prop :=
  s1.results = s2.results ∧ s1.errors = s2.errors ∧ s1.resolvers = s2.resolvers ∧
  s1.waitingFor = s2.waitingFor ∧ s1.threads = s2.threads ∧ s1.log = s2.log

theorem coreEq_refl (s : ExecState) : coreEq s s := ⟨rfl, rfl, rfl, rfl, rfl, rfl⟩

theorem coreEq_eta {s1 s2 : ExecState} (h : coreEq s1 s2) :
    s1 = { s2 with returnValue := s1.returnValue } := by
  obtain ⟨h1, h2, h3, h4, h5, h6⟩ := h
  cases s1
  cases s2
  simp_all

theorem step_core_flag (tasks : Tasks) (flag1 flag2 : Bool) (st : ExecState)
    (rv : String → Option RVal) (idx : Nat) :
    coreEq (step tasks flag1 { st with returnValue := rv } idx)
      (step tasks flag2 st idx) := by
  rcases hsel : st.threads[idx % st.threads.length]? with _ | ⟨name, body⟩
  · have hsel2 : ({ st with returnValue := rv } : ExecState).threads[idx %
        ({ st with returnValue := rv } : ExecState).threads.length]? = none := hsel
    rw [step_none hsel, step_none hsel2]
    exact ⟨rfl, rfl, rfl, rfl, rfl, rfl⟩
  · cases body with
    | ret v =>
      have hsel2 : ({ st with returnValue := rv } : ExecState).threads[idx %
          ({ st with returnValue := rv } : ExecState).threads.length]? =
            some (name, TaskBody.ret v) := hsel
      rw [step_ret hsel, step_ret hsel2]
      exact ⟨rfl, rfl, rfl, rfl, rfl, rfl⟩
    | thr e =>
      have hsel2 : ({ st with returnValue := rv } : ExecState).threads[idx %
          ({ st with returnValue := rv } : ExecState).threads.length]? =
            some (name, TaskBody.thr e) := hsel
      rw [step_thr hsel, step_thr hsel2]
      exact ⟨rfl, rfl, rfl, rfl, rfl, rfl⟩
    | pause k =>
      have hsel2 : ({ st with returnValue := rv } : ExecState).threads[idx %
          ({ st with returnValue := rv } : ExecState).threads.length]? =
            some (name, TaskBody.pause k) := hsel
      rw [step_pause hsel, step_pause hsel2]
      exact ⟨rfl, rfl, rfl, rfl, rfl, rfl⟩
    | get dep k hh =>
      have hsel2 : ({ st with returnValue := rv } : ExecState).threads[idx %
          ({ st with returnValue := rv } : ExecState).threads.length]? =
            some (name, TaskBody.get dep k hh) := hsel
      rw [step_get hsel, step_get hsel2]
      set rest := st.threads.eraseIdx (idx % st.threads.length) with hrest
      by_cases hunk : (alookup tasks dep).isNone = true
      · rw [waitForDep_unknown hunk, waitForDep_unknown hunk]
        exact ⟨rfl, rfl, rfl, rfl, rfl, rfl⟩
      · by_cases hself : name = dep
        · rw [waitForDep_self hunk hself, waitForDep_self hunk hself]
          exact ⟨rfl, rfl, rfl, rfl, rfl, rfl⟩
        · by_cases hcyc : hasCyclePath st.waitingFor dep name = true
          · have hc1 : hasCyclePath ({ st with returnValue := rv, threads := rest }
                : ExecState).waitingFor dep name = true := hcyc
            have hc2 : hasCyclePath ({ st with threads := rest }
                : ExecState).waitingFor dep name = true := hcyc
            rw [waitForDep_cycle hunk hself hc1, waitForDep_cycle hunk hself hc2]
            exact ⟨rfl, rfl, rfl, rfl, rfl, rfl⟩
          · have hc1 : ¬ hasCyclePath ({ st with returnValue := rv, threads := rest }
                : ExecState).waitingFor dep name = true := hcyc
            have hc2 : ¬ hasCyclePath ({ st with threads := rest }
                : ExecState).waitingFor dep name = true := hcyc
            rcases hres : st.results dep with _ | v
            · have hr1 : ({ st with returnValue := rv, threads := rest }
                  : ExecState).results dep = none := hres
              have hr2 : ({ st with threads := rest } : ExecState).results dep = none := hres
              rcases herr : st.errors dep with _ | e
              · have he1 : ({ st with returnValue := rv, threads := rest }
                    : ExecState).errors dep = none := herr
                have he2 : ({ st with threads := rest } : ExecState).errors dep = none := herr
                rw [waitForDep_block hunk hself hc1 hr1 he1,
                  waitForDep_block hunk hself hc2 hr2 he2]
                exact ⟨rfl, rfl, rfl, rfl, rfl, rfl⟩
              · have he1 : ({ st with returnValue := rv, threads := rest }
                    : ExecState).errors dep = some e := herr
                have he2 : ({ st with threads := rest } : ExecState).errors dep = some e := herr
                rw [waitForDep_fastErr hunk hself hc1 hr1 he1,
                  waitForDep_fastErr hunk hself hc2 hr2 he2]
                exact ⟨rfl, rfl, rfl, rfl, rfl, rfl⟩
            · have hr1 : ({ st with returnValue := rv, threads := rest }
                  : ExecState).results dep = some v := hres
              have hr2 : ({ st with threads := rest } : ExecState).results dep = some v := hres
              rw [waitForDep_fastOk hunk hself hc1 hr1, waitForDep_fastOk hunk hself hc2 hr2]
              exact ⟨rfl, rfl, rfl, rfl, rfl, rfl⟩

theorem step_coreEq {tasks : Tasks} {flag1 flag2 : Bool} {s1 s2 : ExecState} (idx : Nat)
    (h : coreEq s1 s2) :
    coreEq (step tasks flag1 s1 idx) (step tasks flag2 s2 idx) := by
  rw [coreEq_eta h]
  exact step_core_flag tasks flag1 flag2 s2 s1.returnValue idx

theorem run_coreEq {tasks : Tasks} {flag1 flag2 : Bool} {s1 s2 : ExecState}
    (sched : List Nat) (h : coreEq s1 s2) :
    coreEq (run tasks flag1 s1 sched) (run tasks flag2 s2 sched) := by
  induction sched generalizing s1 s2 with
  | nil => exact h
  | cons i s ih => exact ih (step_coreEq i h)

/-- The two aggregation modes run the identical executor core: the whole state
except `returnValue` evolves identically. -/
theorem exec_coreEq (tasks : Tasks) (flag1 flag2 : Bool) (sched : List Nat) :
    coreEq (executeTasksInternal tasks flag1 sched)
      (executeTasksInternal tasks flag2 sched) :=
  run_coreEq sched (coreEq_refl (initState tasks))

theorem alookup_mem {α : Type} {l : List (String × α)} {k : String} {v : α}
    (h : alookup l k = some v) : (k, v) ∈ l := by
  induction l with
  | nil => simp [alookup] at h
  | cons p l ih =>
    simp only [alookup] at h
    by_cases h1 : p.1 = k
    · rw [if_pos h1] at h
      injection h with hv
      rw [← h1, ← hv]
      exact List.mem_cons_self p l
    · rw [if_neg h1] at h
      exact List.mem_cons_of_mem _ (ih h)

theorem step_of_no_threads {tasks : Tasks} {flag : Bool} {st : ExecState} {idx : Nat}
    (h : st.threads = []) : step tasks flag st idx = st := by
  apply step_none
  rw [h]
  rfl

theorem run_of_no_threads {tasks : Tasks} {flag : Bool} {st : ExecState}
    (sched : List Nat) (h : st.threads = []) : run tasks flag st sched = st := by
  induction sched with
  | nil => rfl
  | cons i s ih =>
    rw [run_cons, step_of_no_threads h]
    exact ih

/-! ### Concrete fixtures used by the witnesses below -/

/-- A unit body that awaits one dependency and returns its value, rethrowing a
rejection (`async () => await this.$.d`). -/
def exBody (d : String) : TaskBody := .get d (fun v => .ret v) (fun e => .thr e)

/-- `{ a: () => 1, b: async () => await this.$.a }`. -/
def exTasks : Tasks := [("a", .fn (.ret (.num 1))), ("b", .fn (exBody "a"))]

/-- `{ a: awaits b, b: awaits c, c: awaits a }` — a three-task cycle. -/
def cycTasks : Tasks :=
  [("a", .fn (exBody "b")), ("b", .fn (exBody "c")), ("c", .fn (exBody "a"))]

/-- `{ bad: 42 (not a function), b: () => 2 }`. -/
def nfTasks : Tasks := [("bad", .notFn), ("b", .fn (.ret (.num 2)))]

/-- `{ a: () => { throw "boom" }, b: () => 2 }`. -/
def errTasks : Tasks := [("a", .fn (.thr (.str "boom"))), ("b", .fn (.ret (.num 2)))]

/-! ### The claims -/

/-- C1: For every task set with unique names, both entry points (any
aggregation flag) and every schedule, each declared invocable task's unit body
is invoked exactly once during the call — the log records exactly one
`invoked` event for it, no matter how many dependents access that name or how
often — and every delivery of a task's fulfilled value to a dependent (settled
fast path or resolver-queue drain) carries the stored resolved value, so all
dependents that await the same name observe the identical value. -/
theorem claim_C1 (tasks : Tasks) (flag : Bool) (sched : List Nat)
    (hk : (tasks.map Prod.fst).Nodup) :
    (∀ n b, alookup tasks n = some (.fn b) →
      countInvoked (executeTasksInternal tasks flag sched).log n = 1) ∧
    (∀ n, alookup tasks n = none →
      countInvoked (executeTasksInternal tasks flag sched).log n = 0) ∧
    (∀ c d v, Event.observed c d v ∈ (executeTasksInternal tasks flag sched).log →
      (executeTasksInternal tasks flag sched).results d = some v) ∧
    (∀ c1 c2 d v1 v2,
      Event.observed c1 d v1 ∈ (executeTasksInternal tasks flag sched).log →
      Event.observed c2 d v2 ∈ (executeTasksInternal tasks flag sched).log →
      v1 = v2) := by
  have hInv : Inv tasks flag (executeTasksInternal tasks flag sched) :=
    inv_exec sched hk
  refine ⟨?_, ?_, ?_, ?_⟩
  · intro n b hb
    rw [hInv.logInvoked n]
    unfold invokedTarget
    rw [hb]
  · intro n hb
    rw [hInv.logInvoked n]
    unfold invokedTarget
    rw [hb]
  · exact fun c d v hmem => hInv.logObserved c d v hmem
  · intro c1 c2 d v1 v2 h1 h2
    have e1 := hInv.logObserved c1 d v1 h1
    have e2 := hInv.logObserved c2 d v2 h2
    rw [e1] at e2
    injection e2

theorem claim_C1_witness :
    ((exTasks.map Prod.fst).Nodup) ∧
    countInvoked (executeTasksInternal exTasks false [1, 0, 0]).log "a" = 1 :=
  ⟨by decide, (claim_C1 exTasks false [1, 0, 0] (by decide)).1 "a" (.ret (.num 1)) rfl⟩

/-- C7: For every caller and every target name that is not a declared task of
the task set, a handle access `get(name)` returns an immediately rejected
future carrying a plain error naming that name (`Unknown task "<name>"`),
records no wait edge, and leaves the entire state — hence every other unit's
outcome — untouched. -/
theorem claim_C7 (tasks : Tasks) (caller dep : String) (k h : Value → TaskBody)
    (st : ExecState) (hunk : (alookup tasks dep).isNone = true) :
    waitForDep tasks caller dep k h st = (.now (.err (.error (unknownMsg dep))), st) ∧
    unknownMsg dep = "Unknown task \"" ++ dep ++ "\"" :=
  ⟨waitForDep_unknown hunk, rfl⟩

theorem claim_C7_witness :
    ((alookup exTasks "nonexistent").isNone = true) ∧
    waitForDep exTasks "b" "nonexistent" (fun v => .ret v) (fun e => .thr e)
        (initState exTasks) =
      (.now (.err (.error (unknownMsg "nonexistent"))), initState exTasks) :=
  ⟨by decide,
    (claim_C7 exTasks "b" "nonexistent" (fun v => .ret v) (fun e => .thr e)
      (initState exTasks) (by decide)).1⟩

/-- C10: Every error the executor itself produces is a plain error value
distinguished only by its message string: unknown targets reject with
`Unknown task "<name>"`, non-invocable entries settle with
`Task "<name>" is not a function`, and both self-dependency and cycle-closing
accesses reject with messages beginning `Circular dependency detected: ` —
there is no separate error tag beyond the message text. -/
theorem claim_C10 :
    (∀ dep, unknownMsg dep = "Unknown task \"" ++ dep ++ "\"") ∧
    (∀ n, notCallableMsg n = "Task \"" ++ n ++ "\" is not a function") ∧
    (∀ c d, ∃ rest, selfMsg c d = "Circular dependency detected: " ++ rest) ∧
    (∀ c d g, ∃ rest, cycleMsg c d g = "Circular dependency detected: " ++ rest) ∧
    (∀ tasks c dep k h st, (alookup tasks dep).isNone = true →
      (waitForDep tasks c dep k h st).1 = .now (.err (.error (unknownMsg dep)))) ∧
    (∀ tasks c k h st, ¬ (alookup tasks c).isNone = true →
      (waitForDep tasks c c k h st).1 = .now (.err (.error (selfMsg c c)))) ∧
    (∀ tasks c dep k h st, ¬ (alookup tasks dep).isNone = true → ¬ c = dep →
      hasCyclePath st.waitingFor dep c = true →
      (waitForDep tasks c dep k h st).1 = .now (.err (.error (cycleMsg c dep st.waitingFor)))) ∧
    (∀ p : String × TaskEntry, p.2 = TaskEntry.notFn →
      spawn p = (p.1, .thr (.error (notCallableMsg p.1)))) := by
  refine ⟨fun dep => rfl, fun n => rfl, fun c d => ⟨c ++ " → " ++ d, rfl⟩,
    fun c d g => ⟨String.intercalate " → " (msgParts c d g), rfl⟩, ?_, ?_, ?_, ?_⟩
  · intro tasks c dep k h st hunk
    rw [waitForDep_unknown hunk]
  · intro tasks c k h st hdec
    rw [waitForDep_self hdec rfl]
  · intro tasks c dep k h st hdec hself hcyc
    rw [waitForDep_cycle hdec hself hcyc]
  · intro p hp
    unfold spawn
    rw [hp]

theorem claim_C10_witness :
    unknownMsg "x" = "Unknown task \"x\"" ∧
    notCallableMsg "bad" = "Task \"bad\" is not a function" ∧
    (∃ rest, selfMsg "a" "a" = "Circular dependency detected: " ++ rest) ∧
    ((alookup nfTasks "zzz").isNone = true) ∧
    (waitForDep nfTasks "b" "zzz" (fun v => .ret v) (fun e => .thr e)
        (initState nfTasks)).1 = .now (.err (.error (unknownMsg "zzz"))) :=
  ⟨(claim_C10).1 "x", (claim_C10).2.1 "bad", (claim_C10).2.2.1 "a" "a", by decide,
    (claim_C10).2.2.2.2.1 nfTasks "b" "zzz" (fun v => .ret v) (fun e => .thr e)
      (initState nfTasks) (by decide)⟩

/-- C2 (amended): For a declared target, an access through the dependency
handle returns an immediately rejected future and changes nothing in the state
(no wait edge recorded) when the target equals the caller (message
`Circular dependency detected: caller → caller`) or when the target can
already transitively reach the caller through recorded wait edges; in the
transitive case the rejecting message is the arrow-joined form
`caller → targetName → … → caller → caller`: the caller, followed by a chain
of recorded wait edges leading from the target back to the caller, followed by
one more (redundant) repetition of the caller — not
`caller → … → targetName → caller` as originally stated. -/
theorem claim_C2 (tasks : Tasks) (caller dep : String) (k h : Value → TaskBody)
    (st : ExecState) (hdec : ¬ (alookup tasks dep).isNone = true) :
    (caller = dep →
      waitForDep tasks caller dep k h st =
        (.now (.err (.error (selfMsg caller dep))), st)) ∧
    (¬ caller = dep → hasCyclePath st.waitingFor dep caller = true →
      waitForDep tasks caller dep k h st =
        (.now (.err (.error (cycleMsg caller dep st.waitingFor))), st) ∧
      ∃ p, buildCyclePath st.waitingFor dep caller = dep :: p ∧
        List.Chain (Edge st.waitingFor) dep p ∧
        (dep :: p).getLast? = some caller ∧
        msgParts caller dep st.waitingFor = caller :: ((dep :: p) ++ [caller]) ∧
        cycleMsg caller dep st.waitingFor =
          "Circular dependency detected: " ++
            String.intercalate " → " (caller :: ((dep :: p) ++ [caller]))) := by
  constructor
  · intro hself
    exact waitForDep_self hdec hself
  · intro hself hcyc
    refine ⟨waitForDep_cycle hdec hself hcyc, ?_⟩
    have hreach : Reaches st.waitingFor dep caller := hasCyclePath_iff.mp hcyc
    obtain ⟨p, hp1, hp2, hp3⟩ := buildCyclePath_spec hreach
    refine ⟨p, hp1, hp2, hp3, ?_, ?_⟩
    · unfold msgParts
      rw [hp1]
    · unfold cycleMsg msgParts
      rw [hp1]

/-- C2 counterexample: on the cyclic task set `{a → b → c → a}`, after the
schedule that records the edges `a → b` and `b → c`, task `c`'s access to `a`
rejects with the message `Circular dependency detected: c → a → b → c → c`
(parts `[c, a, b, c, c]`).  That is not of the claimed form
`caller → … → targetName → caller`: no arrow-joined rendering of the parts
ends with `… → a → c`, and the adjacent pair `a → c` occurs nowhere in it. -/
theorem claim_C2_counterexample :
    msgParts "c" "a" (executeTasksInternal cycTasks false [0, 0]).waitingFor =
      ["c", "a", "b", "c", "c"] ∧
    hasCyclePath (executeTasksInternal cycTasks false [0, 0]).waitingFor "a" "c" = true ∧
    (waitForDep cycTasks "c" "a" (fun v => .ret v) (fun e => .thr e)
        (executeTasksInternal cycTasks false [0, 0])).1 =
      .now (.err (.error "Circular dependency detected: c → a → b → c → c")) ∧
    ¬ (∃ mids : List String,
        msgParts "c" "a" (executeTasksInternal cycTasks false [0, 0]).waitingFor =
          "c" :: (mids ++ ["a", "c"])) ∧
    ¬ (["a", "c"] <:+:
        msgParts "c" "a" (executeTasksInternal cycTasks false [0, 0]).waitingFor) := by
  have hparts : msgParts "c" "a" (executeTasksInternal cycTasks false [0, 0]).waitingFor =
      ["c", "a", "b", "c", "c"] := by decide
  refine ⟨hparts, by decide, by decide, ?_, ?_⟩
  · rintro ⟨mids, hm⟩
    rw [hparts] at hm
    have hlen := congrArg List.length hm
    simp at hlen
    rcases mids with _ | ⟨x, mids⟩
    · simp at hlen
    rcases mids with _ | ⟨y, mids⟩
    · simp at hlen
    rcases mids with _ | ⟨z, mids⟩
    · simp only [List.cons_append, List.nil_append] at hm
      have h3 := congrArg (fun l => l[3]?) hm
      simp at h3
    · simp at hlen
  · rw [hparts]
    decide

theorem claim_C2_witness :
    (¬ (alookup cycTasks "a").isNone = true) ∧ (¬ "c" = "a") ∧
    (hasCyclePath (executeTasksInternal cycTasks false [0, 0]).waitingFor "a" "c" = true) ∧
    ((waitForDep cycTasks "c" "a" (fun v => .ret v) (fun e => .thr e)
        (executeTasksInternal cycTasks false [0, 0]) =
      (.now (.err (.error (cycleMsg "c" "a"
          (executeTasksInternal cycTasks false [0, 0]).waitingFor))),
        executeTasksInternal cycTasks false [0, 0])) ∧
      ∃ p, buildCyclePath (executeTasksInternal cycTasks false [0, 0]).waitingFor "a" "c" =
          "a" :: p ∧
        List.Chain (Edge (executeTasksInternal cycTasks false [0, 0]).waitingFor) "a" p ∧
        ("a" :: p).getLast? = some "c" ∧
        msgParts "c" "a" (executeTasksInternal cycTasks false [0, 0]).waitingFor =
          "c" :: (("a" :: p) ++ ["c"]) ∧
        cycleMsg "c" "a" (executeTasksInternal cycTasks false [0, 0]).waitingFor =
          "Circular dependency detected: " ++
            String.intercalate " → " ("c" :: (("a" :: p) ++ ["c"]))) :=
  ⟨by decide, by decide, by decide,
    (claim_C2 cycTasks "c" "a" (fun v => .ret v) (fun e => .thr e)
      (executeTasksInternal cycTasks false [0, 0]) (by decide)).2 (by decide) (by decide)⟩

theorem all_of_none {tasks : Tasks} {sched : List Nat}
    (h : firstErrorIn (executeTasksInternal tasks false sched).log = none) :
    all tasks sched = .ok (executeTasksInternal tasks false sched).returnValue := by
  unfold all
  rw [h]

theorem all_of_some {tasks : Tasks} {sched : List Nat} {e : Value}
    (h : firstErrorIn (executeTasksInternal tasks false sched).log = some e) :
    all tasks sched = .error e := by
  unfold all
  rw [h]

/-- C3: For every task set with unique names and every completed run, the
fail-fast entry `all` resolves — when every unit settled fulfilled — to a
mapping with the same key set as the task set whose values are the raw
resolved results; and when some unit settled rejected, it rejects with the
first error in settlement order (which is some unit's stored failure), in
which case no result mapping is exposed to the caller at all. -/
theorem claim_C3 (tasks : Tasks) (sched : List Nat)
    (hk : (tasks.map Prod.fst).Nodup)
    (hdone : (executeTasksInternal tasks false sched).threads = []) :
    (firstErrorIn (executeTasksInternal tasks false sched).log = none →
      all tasks sched = .ok (executeTasksInternal tasks false sched).returnValue ∧
      (∀ n, declared tasks n ↔
        ((executeTasksInternal tasks false sched).returnValue n).isSome) ∧
      (∀ n v, (executeTasksInternal tasks false sched).results n = some v ↔
        (executeTasksInternal tasks false sched).returnValue n = some (.raw v))) ∧
    (∀ e, firstErrorIn (executeTasksInternal tasks false sched).log = some e →
      all tasks sched = .error e ∧
      (∃ n, (executeTasksInternal tasks false sched).errors n = some e) ∧
      (∀ rv, all tasks sched ≠ .ok rv)) := by
  have hInv : Inv tasks false (executeTasksInternal tasks false sched) :=
    inv_exec sched hk
  constructor
  · intro hnone
    refine ⟨all_of_none hnone, ?_, ?_⟩
    · intro n
      constructor
      · intro hd
        rcases threads_empty_settled hInv hdone n hd with ⟨v, hv⟩ | ⟨e, he⟩
        · rw [hInv.rvFalse rfl n, hv]
          rfl
        · exfalso
          exact (firstErrorIn_eq_none_iff _).mp hnone n e
            ((hInv.logSettledErr n e).mpr he)
      · intro hs
        rw [hInv.rvFalse rfl n] at hs
        rcases hr : (executeTasksInternal tasks false sched).results n with _ | v
        · rw [hr] at hs
          simp at hs
        · exact hInv.resultsDeclared n (by rw [hr]; exact fun hc => Option.noConfusion hc)
    · intro n v
      rw [hInv.rvFalse rfl n]
      constructor
      · intro hr
        rw [hr]
        rfl
      · intro hr
        rcases hr2 : (executeTasksInternal tasks false sched).results n with _ | w
        · rw [hr2] at hr
          simp at hr
        · rw [hr2] at hr
          simp only [Option.map_some'] at hr
          have : w = v := by
            have h3 : RVal.raw w = RVal.raw v := by injection hr
            injection h3
          rw [this]
  · intro e hfe
    refine ⟨all_of_some hfe, ?_, ?_⟩
    · obtain ⟨n, hn⟩ := firstErrorIn_mem hfe
      exact ⟨n, (hInv.logSettledErr n e).mp hn⟩
    · intro rv
      rw [all_of_some hfe]
      exact fun hc => Except.noConfusion hc

theorem claim_C3_witness :
    ((errTasks.map Prod.fst).Nodup) ∧
    ((executeTasksInternal errTasks false [0, 1]).threads = []) ∧
    (firstErrorIn (executeTasksInternal errTasks false [0, 1]).log =
      some (.str "boom")) ∧
    (all errTasks [0, 1] = .error (.str "boom") ∧
      (∃ n, (executeTasksInternal errTasks false [0, 1]).errors n = some (.str "boom")) ∧
      (∀ rv, all errTasks [0, 1] ≠ .ok rv)) :=
  ⟨by decide, by rfl, by decide,
    (claim_C3 errTasks [0, 1] (by decide) (by rfl)).2 (.str "boom") (by decide)⟩

/-- C4: For every task set with unique names, the settle-all entry
`allSettled` returns a future that never rejects; once every unit has settled
(no runnable thread remains), every declared task name carries exactly one
settlement descriptor — fulfilled with a value or rejected with a reason —
and undeclared names carry none; the empty task set resolves immediately to
the empty mapping under both entry points. -/
theorem claim_C4 (tasks : Tasks) (sched : List Nat)
    (hk : (tasks.map Prod.fst).Nodup) :
    (∃ rv, allSettled tasks sched = .ok rv) ∧
    (∀ e, allSettled tasks sched ≠ .error e) ∧
    ((executeTasksInternal tasks true sched).threads = [] →
      ∀ n, declared tasks n →
        (∃ v, (executeTasksInternal tasks true sched).returnValue n =
          some (.fulfilled v)) ∨
        (∃ e, (executeTasksInternal tasks true sched).returnValue n =
          some (.rejected e))) ∧
    (∀ n, ¬ declared tasks n →
      (executeTasksInternal tasks true sched).returnValue n = none) ∧
    (tasks = [] → allSettled tasks sched = .ok (fun _ => none) ∧
      all tasks sched = .ok (fun _ => none)) := by
  have hInv : Inv tasks true (executeTasksInternal tasks true sched) :=
    inv_exec sched hk
  refine ⟨⟨_, rfl⟩, ?_, ?_, ?_, ?_⟩
  · intro e hc
    exact Except.noConfusion hc
  · intro hdone n hd
    rcases threads_empty_settled hInv hdone n hd with ⟨v, hv⟩ | ⟨e, he⟩
    · refine Or.inl ⟨v, ?_⟩
      rw [hInv.rvTrue rfl n, hv]
    · refine Or.inr ⟨e, ?_⟩
      have hrn : (executeTasksInternal tasks true sched).results n = none := by
        rcases hInv.settledDisjoint n with h | h
        · exact h
        · rw [he] at h
          exact absurd h (fun hc => Option.noConfusion hc)
      rw [hInv.rvTrue rfl n, hrn, he]
      rfl
  · intro n hnd
    have hrn : (executeTasksInternal tasks true sched).results n = none := by
      rcases hr : (executeTasksInternal tasks true sched).results n with _ | v
      · rfl
      · exact absurd (hInv.resultsDeclared n (by rw [hr]; exact fun hc => Option.noConfusion hc)) hnd
    have hen : (executeTasksInternal tasks true sched).errors n = none := by
      rcases hr : (executeTasksInternal tasks true sched).errors n with _ | e
      · rfl
      · exact absurd (hInv.errorsDeclared n (by rw [hr]; exact fun hc => Option.noConfusion hc)) hnd
    rw [hInv.rvTrue rfl n, hrn, hen]
    rfl
  · intro hempty
    subst hempty
    have hcoT : executeTasksInternal ([] : Tasks) true sched = initState [] :=
      run_of_no_threads sched rfl
    have hcoF : executeTasksInternal ([] : Tasks) false sched = initState [] :=
      run_of_no_threads sched rfl
    constructor
    · unfold allSettled
      rw [hcoT]
      rfl
    · unfold all
      rw [hcoF]
      rfl

theorem claim_C4_witness :
    ((errTasks.map Prod.fst).Nodup) ∧
    ((executeTasksInternal errTasks true [0, 1]).threads = []) ∧
    ((executeTasksInternal errTasks true [0, 1]).returnValue "a" =
      some (.rejected (.str "boom")) ∨
      (∃ v, (executeTasksInternal errTasks true [0, 1]).returnValue "a" =
        some (.fulfilled v)) ∨
      (∃ e, (executeTasksInternal errTasks true [0, 1]).returnValue "a" =
        some (.rejected e))) ∧
    (∃ rv, allSettled errTasks [0, 1] = .ok rv) :=
  ⟨by decide, by rfl,
    Or.inr ((claim_C4 errTasks [0, 1] (by decide)).2.2.1 (by rfl) "a" (by decide)),
    (claim_C4 errTasks [0, 1] (by decide)).1⟩

/-- C5: Throughout any single run, the wait graph only grows — every edge
recorded after a schedule prefix is still present after any extension — and it
is acyclic at every point; moreover a handle access rejected by validation
(unknown target, self-reference, or an edge that would close a cycle) returns
the state — in particular the graph — completely unchanged. -/
theorem claim_C5 (tasks : Tasks) (flag : Bool) (pre suf : List Nat)
    (hk : (tasks.map Prod.fst).Nodup) :
    SubGraph (executeTasksInternal tasks flag pre).waitingFor
      (executeTasksInternal tasks flag (pre ++ suf)).waitingFor ∧
    Acyclic (executeTasksInternal tasks flag pre).waitingFor ∧
    (∀ caller dep k h st, (alookup tasks dep).isNone = true →
      (waitForDep tasks caller dep k h st).2 = st) ∧
    (∀ caller dep k h st, ¬ (alookup tasks dep).isNone = true → caller = dep →
      (waitForDep tasks caller dep k h st).2 = st) ∧
    (∀ caller dep k h st, ¬ (alookup tasks dep).isNone = true → ¬ caller = dep →
      hasCyclePath st.waitingFor dep caller = true →
      (waitForDep tasks caller dep k h st).2 = st) := by
  refine ⟨?_, (inv_exec pre hk).graphAcyclic, ?_, ?_, ?_⟩
  · unfold executeTasksInternal
    rw [run_append]
    exact run_graph_mono tasks flag _ suf
  · intro caller dep k h st hunk
    rw [waitForDep_unknown hunk]
  · intro caller dep k h st hdec hself
    rw [waitForDep_self hdec hself]
  · intro caller dep k h st hdec hself hcyc
    rw [waitForDep_cycle hdec hself hcyc]

theorem claim_C5_witness :
    ((cycTasks.map Prod.fst).Nodup) ∧
    SubGraph (executeTasksInternal cycTasks false [0, 0]).waitingFor
      (executeTasksInternal cycTasks false ([0, 0] ++ [0])).waitingFor ∧
    Acyclic (executeTasksInternal cycTasks false [0, 0]).waitingFor :=
  ⟨by decide, (claim_C5 cycTasks false [0, 0] [0] (by decide)).1,
    (claim_C5 cycTasks false [0, 0] [0] (by decide)).2.1⟩

/-- C6: A handle access to a declared, non-self, non-cycle-closing target that
has already settled returns immediately with exactly the stored outcome
(resolved with the stored value, or rejected with the stored failure value);
at settlement the target's resolver queue is drained exactly once — its queue
is emptied and every current waiter is resumed with the very same stored
failure value — and every failure a waiter ever observes, early or late, is
the stored failure value itself, so all observers of one task's failure see
the identical value. -/
theorem claim_C6 (tasks : Tasks) (flag : Bool) (sched : List Nat)
    (hk : (tasks.map Prod.fst).Nodup) :
    (∀ c dep k h st v, ¬ (alookup tasks dep).isNone = true → ¬ c = dep →
      ¬ hasCyclePath st.waitingFor dep c = true → st.results dep = some v →
      (waitForDep tasks c dep k h st).1 = .now (.ok v)) ∧
    (∀ c dep k h st e, ¬ (alookup tasks dep).isNone = true → ¬ c = dep →
      ¬ hasCyclePath st.waitingFor dep c = true → st.results dep = none →
      st.errors dep = some e →
      (waitForDep tasks c dep k h st).1 = .now (.err e)) ∧
    (∀ f2 name e st,
      (handleError f2 name e st).resolvers name = [] ∧
      (handleError f2 name e st).threads =
        st.threads ++ (st.resolvers name).map (fun w => (w.1, w.2.2 e))) ∧
    (∀ c d e, Event.observedErr c d e ∈ (executeTasksInternal tasks flag sched).log →
      (executeTasksInternal tasks flag sched).errors d = some e) ∧
    (∀ c1 c2 d e1 e2,
      Event.observedErr c1 d e1 ∈ (executeTasksInternal tasks flag sched).log →
      Event.observedErr c2 d e2 ∈ (executeTasksInternal tasks flag sched).log →
      e1 = e2) := by
  have hInv : Inv tasks flag (executeTasksInternal tasks flag sched) :=
    inv_exec sched hk
  refine ⟨?_, ?_, ?_, ?_, ?_⟩
  · intro c dep k h st v hdec hself hcyc hres
    rw [waitForDep_fastOk hdec hself hcyc hres]
  · intro c dep k h st e hdec hself hcyc hres herr
    rw [waitForDep_fastErr hdec hself hcyc hres herr]
  · intro f2 name e st
    constructor
    · show (if name = name then [] else st.resolvers name) = []
      rw [if_pos rfl]
    · rfl
  · intro c d e hobs
    exact hInv.logObservedErr c d e hobs
  · intro c1 c2 d e1 e2 h1 h2
    have he1 := hInv.logObservedErr c1 d e1 h1
    have he2 := hInv.logObservedErr c2 d e2 h2
    rw [he1] at he2
    injection he2

theorem claim_C6_witness :
    ((exTasks.map Prod.fst).Nodup) ∧
    (¬ (alookup exTasks "a").isNone = true) ∧
    ((executeTasksInternal exTasks false [0]).results "a" = some (.num 1)) ∧
    ((waitForDep exTasks "b" "a" (fun v => .ret v) (fun e => .thr e)
      (executeTasksInternal exTasks false [0])).1 = .now (.ok (.num 1))) :=
  ⟨by decide, by decide, by decide,
    (claim_C6 exTasks false [0] (by decide)).1 "b" "a" (fun v => .ret v)
      (fun e => .thr e) (executeTasksInternal exTasks false [0]) (.num 1)
      (by decide) (by decide) (by decide) (by decide)⟩

/-- C8: If a task set declares an entry whose value is not callable, that unit
is launched as an immediate throw of an error naming the offending task, and
in every reachable state it is either still pending or settled rejected with
that error; it never aborts the others: once a run completes, under settle-all
every other declared unit has its own settlement descriptor (and the offending
one a rejected descriptor with that error), and under fail-fast every declared
unit still ran to settlement even though the call's future rejects. -/
theorem claim_C8 (tasks : Tasks) (nf : String) (sched : List Nat)
    (hk : (tasks.map Prod.fst).Nodup)
    (hnf : alookup tasks nf = some .notFn) :
    (∀ flag, (nf, TaskBody.thr (.error (notCallableMsg nf))) ∈
        (executeTasksInternal tasks flag sched).threads ∨
      (executeTasksInternal tasks flag sched).errors nf =
        some (.error (notCallableMsg nf))) ∧
    ((executeTasksInternal tasks true sched).threads = [] →
      (executeTasksInternal tasks true sched).errors nf =
        some (.error (notCallableMsg nf)) ∧
      (executeTasksInternal tasks true sched).returnValue nf =
        some (.rejected (.error (notCallableMsg nf))) ∧
      (∀ n, declared tasks n →
        (∃ v, (executeTasksInternal tasks true sched).returnValue n =
          some (.fulfilled v)) ∨
        (∃ e, (executeTasksInternal tasks true sched).returnValue n =
          some (.rejected e)))) ∧
    ((executeTasksInternal tasks false sched).threads = [] →
      (executeTasksInternal tasks false sched).errors nf =
        some (.error (notCallableMsg nf)) ∧
      (∃ e, all tasks sched = .error e) ∧
      (∀ n, declared tasks n →
        (∃ v, (executeTasksInternal tasks false sched).results n = some v) ∨
        (∃ e, (executeTasksInternal tasks false sched).errors n = some e))) := by
  have hpend : ∀ flag : Bool, (nf, TaskBody.thr (.error (notCallableMsg nf))) ∈
      (executeTasksInternal tasks flag sched).threads ∨
      (executeTasksInternal tasks flag sched).errors nf =
        some (.error (notCallableMsg nf)) := by
    intro flag
    have h1 : (nf, TaskEntry.notFn) ∈ tasks := alookup_mem hnf
    have h2 : (nf, TaskBody.thr (.error (notCallableMsg nf))) ∈ (initState tasks).threads :=
      List.mem_map_of_mem spawn h1
    exact run_thr_pending sched (inv_init tasks flag hk) nf _ (Or.inl h2)
  refine ⟨hpend, ?_, ?_⟩
  · intro hdone
    have hInv : Inv tasks true (executeTasksInternal tasks true sched) :=
      inv_exec sched hk
    have herr : (executeTasksInternal tasks true sched).errors nf =
        some (.error (notCallableMsg nf)) := by
      rcases hpend true with hmem | herr
      · rw [hdone] at hmem
        exact absurd hmem (List.not_mem_nil _)
      · exact herr
    have hrn : (executeTasksInternal tasks true sched).results nf = none := by
      rcases hInv.settledDisjoint nf with h | h
      · exact h
      · rw [herr] at h
        exact absurd h (fun hc => Option.noConfusion hc)
    refine ⟨herr, ?_, ?_⟩
    · rw [hInv.rvTrue rfl nf, hrn, herr]
      rfl
    · intro n hd
      rcases threads_empty_settled hInv hdone n hd with ⟨v, hv⟩ | ⟨e, he⟩
      · refine Or.inl ⟨v, ?_⟩
        rw [hInv.rvTrue rfl n, hv]
      · refine Or.inr ⟨e, ?_⟩
        have hrn2 : (executeTasksInternal tasks true sched).results n = none := by
          rcases hInv.settledDisjoint n with h | h
          · exact h
          · rw [he] at h
            exact absurd h (fun hc => Option.noConfusion hc)
        rw [hInv.rvTrue rfl n, hrn2, he]
        rfl
  · intro hdone
    have hInv : Inv tasks false (executeTasksInternal tasks false sched) :=
      inv_exec sched hk
    have herr : (executeTasksInternal tasks false sched).errors nf =
        some (.error (notCallableMsg nf)) := by
      rcases hpend false with hmem | herr
      · rw [hdone] at hmem
        exact absurd hmem (List.not_mem_nil _)
      · exact herr
    refine ⟨herr, ?_, threads_empty_settled hInv hdone⟩
    rcases hfe : firstErrorIn (executeTasksInternal tasks false sched).log with _ | e
    · exfalso
      exact (firstErrorIn_eq_none_iff _).mp hfe nf _
        ((hInv.logSettledErr nf _).mpr herr)
    · exact ⟨e, all_of_some hfe⟩

theorem claim_C8_witness :
    (alookup nfTasks "bad" = some .notFn) ∧
    ((executeTasksInternal nfTasks true [0, 1]).threads = []) ∧
    ((executeTasksInternal nfTasks true [0, 1]).errors "bad" =
      some (.error (notCallableMsg "bad")) ∧
     (executeTasksInternal nfTasks true [0, 1]).returnValue "bad" =
      some (.rejected (.error (notCallableMsg "bad"))) ∧
     (∀ n, declared nfTasks n →
        (∃ v, (executeTasksInternal nfTasks true [0, 1]).returnValue n =
          some (.fulfilled v)) ∨
        (∃ e, (executeTasksInternal nfTasks true [0, 1]).returnValue n =
          some (.rejected e)))) :=
  ⟨by rfl, by rfl,
    (claim_C8 nfTasks "bad" [0, 1] (by decide) (by rfl)).2.1 (by rfl)⟩

/-- C9: The two entry points run the identical executor core — after any
schedule the two runs agree on results, errors, resolvers, wait graph,
threads and event log, differing only in the aggregation of `returnValue` —
and on any completed run in which every unit settled fulfilled, `allSettled`
resolves to the mapping assigning each declared name the fulfilled descriptor
of exactly the value that `all` resolves to for that name, with no entries
for undeclared names in either. -/
theorem claim_C9 (tasks : Tasks) (sched : List Nat)
    (hk : (tasks.map Prod.fst).Nodup) :
    coreEq (executeTasksInternal tasks false sched)
      (executeTasksInternal tasks true sched) ∧
    ((executeTasksInternal tasks false sched).threads = [] →
      firstErrorIn (executeTasksInternal tasks false sched).log = none →
      ∃ rvF rvT, all tasks sched = .ok rvF ∧ allSettled tasks sched = .ok rvT ∧
        (∀ n, declared tasks n →
          ∃ v, rvF n = some (.raw v) ∧ rvT n = some (.fulfilled v)) ∧
        (∀ n, ¬ declared tasks n → rvF n = none ∧ rvT n = none)) := by
  have hcore := exec_coreEq tasks false true sched
  refine ⟨hcore, ?_⟩
  intro hdone hnone
  have hInvF : Inv tasks false (executeTasksInternal tasks false sched) :=
    inv_exec sched hk
  have hInvT : Inv tasks true (executeTasksInternal tasks true sched) :=
    inv_exec sched hk
  obtain ⟨hres, herrs, -, -, hth, hlog⟩ := hcore
  refine ⟨_, _, all_of_none hnone, rfl, ?_, ?_⟩
  · intro n hd
    rcases threads_empty_settled hInvF hdone n hd with ⟨v, hv⟩ | ⟨e, he⟩
    · refine ⟨v, ?_, ?_⟩
      · rw [hInvF.rvFalse rfl n, hv]
        rfl
      · have hvT : (executeTasksInternal tasks true sched).results n = some v := by
          rw [← hres]
          exact hv
        rw [hInvT.rvTrue rfl n, hvT]
    · exfalso
      refine (firstErrorIn_eq_none_iff _).mp hnone n e ?_
      exact (hInvF.logSettledErr n e).mpr he
  · intro n hnd
    have hrF : (executeTasksInternal tasks false sched).results n = none := by
      rcases hr : (executeTasksInternal tasks false sched).results n with _ | v
      · rfl
      · exact absurd (hInvF.resultsDeclared n
          (by rw [hr]; exact fun hc => Option.noConfusion hc)) hnd
    have heF : (executeTasksInternal tasks false sched).errors n = none := by
      rcases hr : (executeTasksInternal tasks false sched).errors n with _ | e
      · rfl
      · exact absurd (hInvF.errorsDeclared n
          (by rw [hr]; exact fun hc => Option.noConfusion hc)) hnd
    constructor
    · rw [hInvF.rvFalse rfl n, hrF]
      rfl
    · have hrT : (executeTasksInternal tasks true sched).results n = none := by
        rw [← hres]
        exact hrF
      have heT : (executeTasksInternal tasks true sched).errors n = none := by
        rw [← herrs]
        exact heF
      rw [hInvT.rvTrue rfl n, hrT, heT]
      rfl

theorem claim_C9_witness :
    ((exTasks.map Prod.fst).Nodup) ∧
    ((executeTasksInternal exTasks false [1, 0, 0]).threads = []) ∧
    (firstErrorIn (executeTasksInternal exTasks false [1, 0, 0]).log = none) ∧
    (∃ rvF rvT, all exTasks [1, 0, 0] = .ok rvF ∧
      allSettled exTasks [1, 0, 0] = .ok rvT ∧
      (∀ n, declared exTasks n →
        ∃ v, rvF n = some (.raw v) ∧ rvT n = some (.fulfilled v)) ∧
      (∀ n, ¬ declared exTasks n → rvF n = none ∧ rvT n = none)) :=
  ⟨by decide, by rfl, by decide,
    (claim_C9 exTasks [1, 0, 0] (by decide)).2 (by rfl) (by decide)⟩
